import Mathlib

/-!
# Lock wrappers and contention harness (xv6 homework 5)

Shallow embedding of `lock.c` (the user-level lock wrappers) and of
`lock_example.c` (the contention harness: `child`, `main`, and the
`LOCK_*` preprocessor macros), followed by the properties established
about them.

Conventions of the embedding
* a C `char` is an `Int`; the cast `(char)` is the signed 8-bit wrap `toChar`;
* a process is described by the list of operations (`Op`) it performs, in
  program order; results of system calls are inputs (`Env`);
* the uses of the `LOCK_*` macros are recorded as such in the trace, and
  `expand` gives the C expression the preprocessor substitutes for them.
-/

namespace Hw5

/-! ## Constants of `lock_example.c` -/

/-- Number of workers: `#define NCHILDREN 8`. -/
def NCHILDREN : Nat := 8

/-- Size of a critical-section burst: `#define CRITSECTSZ 3`. -/
def CRITSECTSZ : Nat := 3

/-- Quota of a worker: `#define DATASZ (1024 * 32 / NCHILDREN)`. -/
def DATASZ : Nat := 1024 * 32 / NCHILDREN

/-- Whether line 9, `#define LOCKS_IMPLEMENTED`, is active.  In the source the
line is commented out, so the `#else` branch of the macro definitions is the
one compiled. -/
def LOCKS_IMPLEMENTED : Bool := false

/-- A C `char` value. -/
abbrev Byte := Int

/-- The cast `(char) x` of an `int` (signed 8-bit wrap-around). -/
def toChar (x : Int) : Byte := (x + 128) % 256 - 128

/-- The character constant `'a'`. -/
def first : Byte := 97

/-- The character constant `'_'`, the monitor's "no byte seen yet" value of `fst`. -/
def underscore : Byte := 95

/-- The only lock type named by the harness (`LOCK_BLOCK`). -/
inductive lock_type_t where
  | LOCK_BLOCK
  deriving DecidableEq, Repr

/-- One operation performed by a process of the harness.  System calls carry
their arguments and, where the program looks at it, their result. -/
inductive Op where
  /-- Call `pipe(&pipes[0])` returning `ret`. -/
  | pipe (ret : Int)
  /-- Call `printf(fd, msg)`. -/
  | printf (fd : Int) (msg : String)
  /-- Use of the macro `LOCK_CREATE(x, y)`. -/
  | LOCK_CREATE (x : Nat) (y : lock_type_t)
  /-- Use of the macro `LOCK_TAKE(x)`. -/
  | LOCK_TAKE (x : Nat)
  /-- Use of the macro `LOCK_RELEASE(x)`. -/
  | LOCK_RELEASE (x : Nat)
  /-- Use of the macro `LOCK_DEL(x)`. -/
  | LOCK_DEL (x : Nat)
  /-- Call `fork()` returning `ret`. -/
  | fork (ret : Int)
  /-- Call `close(fd)`. -/
  | close (fd : Int)
  /-- Call `read(fd, &c, 1)`: `some c` when one byte `c` was delivered, `none` when
  the call returned `0` (end of file). -/
  | read (fd : Int) (res : Option Byte)
  /-- Call `write(fd, &tosend, 1)` for the byte `tosend`. -/
  | write (fd : Int) (tosend : Byte)
  /-- Call `wait()` returning `ret`. -/
  | wait (ret : Int)
  /-- Call `exit()`. -/
  | exit
  /-- The assignment `fst = '_'` of line 78, at the top of the `while (1)` body. -/
  | fst_reset
  /-- The assignment `fst = c` of line 83, for the byte `c` just read. -/
  | fst_set (c : Byte)
  deriving DecidableEq, Repr

/-! ## `child` -/

/-- Inner loop of `child`: `for (j = 0 ; j < CRITSECTSZ ; j++) write(pipefd, &tosend, 1);`
started at the given `j`. -/
def childWrites (pipefd : Int) (tosend : Byte) (j : Nat) : List Op :=
  if j < CRITSECTSZ then
    Op.write pipefd tosend :: childWrites pipefd tosend (j + 1)
  else []
termination_by CRITSECTSZ - j

/-- Outer loop of `child`: `for (i = 0 ; i < DATASZ ; i += CRITSECTSZ) { ... }`
started at the given `i`. -/
def childLoop (lock : Nat) (pipefd : Int) (tosend : Byte) (i : Nat) : List Op :=
  if i < DATASZ then
    Op.LOCK_TAKE lock :: (childWrites pipefd tosend 0 ++
      Op.LOCK_RELEASE lock :: childLoop lock pipefd tosend (i + CRITSECTSZ))
  else []
termination_by DATASZ - i
decreasing_by
  simp only [CRITSECTSZ]
  omega

/-- The function `child(lock, pipefd, tosend)`: the loop, then `exit()`. -/
def child (lock : Nat) (pipefd : Int) (tosend : Byte) : List Op :=
  childLoop lock pipefd tosend 0 ++ [Op.exit]

/-- One critical section as the claim describes it: take, `CRITSECTSZ` writes of
the marker, release. -/
def burst (lock : Nat) (pipefd : Int) (m : Byte) : List Op :=
  Op.LOCK_TAKE lock :: (List.replicate CRITSECTSZ (Op.write pipefd m) ++ [Op.LOCK_RELEASE lock])

/-- The bytes written by a trace, in order. -/
def written : List Op → List Byte
  | [] => []
  | Op.write _ c :: t => c :: written t
  | _ :: t => written t


/-! ## The `LOCK_*` macros -/

/-- An argument of a lock call: a pointer to a `struct lock`, or a lock type. -/
inductive Arg where
  | ptr (a : Nat)
  | type (t : lock_type_t)
  deriving DecidableEq, Repr

/-- The C expression a `LOCK_*` macro stands for after preprocessing. -/
inductive CExpr where
  /-- The expression `var++`. -/
  | postIncr (var : String)
  /-- The call `fn(args)`. -/
  | call (fn : String) (args : List Arg)
  deriving DecidableEq, Repr

/-- Lines 10-23 of `lock_example.c`: what the preprocessor substitutes for a use
of `LOCK_CREATE`, `LOCK_TAKE`, `LOCK_RELEASE`, `LOCK_DEL`, depending on whether
`LOCKS_IMPLEMENTED` is defined.  Other operations are not macros (`none`). -/
def expand (locksImplemented : Bool) : Op → Option CExpr
  | Op.LOCK_CREATE x y =>
    some (if locksImplemented then CExpr.call "lock_create" [Arg.ptr x, Arg.type y]
      else CExpr.postIncr "compilehack")
  | Op.LOCK_TAKE x =>
    some (if locksImplemented then CExpr.call "lock_take" [Arg.ptr x]
      else CExpr.postIncr "compilehack")
  | Op.LOCK_RELEASE x =>
    some (if locksImplemented then CExpr.call "lock_release" [Arg.ptr x]
      else CExpr.postIncr "compilehack")
  | Op.LOCK_DEL x =>
    some (if locksImplemented then CExpr.call "lock_delete" [Arg.ptr x]
      else CExpr.postIncr "compilehack")
  | _ => none

/-- The lock-related C expressions a trace executes, in order. -/
def compiled (locksImplemented : Bool) (tr : List Op) : List CExpr :=
  tr.filterMap (expand locksImplemented)

/-- Whether a C expression is a call of one of the four functions of `lock.c`. -/
def isLockManagerCall : CExpr → Bool
  | CExpr.call fn _ =>
    fn == "lock_create" || fn == "lock_take" || fn == "lock_release" || fn == "lock_delete"
  | _ => false

/-- Initial value of the global of line 17, `int compilehack = 0;`. -/
def compilehack0 : Int := 0

/-! ## The monitor loop of `main` (lines 74-89) -/

/-- The diagnostic of line 85. -/
def RACE : Op := Op.printf 1 "RACE!!!\n"

mutual
/-- Body of `while (1)` entered with the bytes `input` still to come on the
pipe: `fst = '_'`, then the `for` loop from `cnt = 0`. -/
def monitorWhile (rfd : Int) (input : List Byte) : List Op :=
  Op.fst_reset :: monitorFor rfd underscore 0 input
termination_by 3 * input.length + 1
decreasing_by
  simp_wf
  simp [CRITSECTSZ]
/-- The loop `for (cnt = 0 ; cnt < CRITSECTSZ ; cnt++)` at its test, with the
current `fst` and `cnt`.  A `read` returning `0` is `goto done` and ends the
monitor; when the test fails the next iteration of `while (1)` starts. -/
def monitorFor (rfd : Int) (fst : Byte) (cnt : Nat) (input : List Byte) : List Op :=
  if cnt < CRITSECTSZ then
    match input with
    | [] => [Op.read rfd none]
    | c :: rest =>
      Op.read rfd (some c) ::
        (if fst = underscore then
          Op.fst_set c :: monitorFor rfd c (cnt + 1) rest
        else if fst ≠ c then
          RACE :: monitorFor rfd fst (cnt + 1) rest
        else
          monitorFor rfd fst (cnt + 1) rest)
  else monitorWhile rfd input
termination_by 3 * input.length + (if cnt < CRITSECTSZ then 0 else 2)
decreasing_by
  all_goals simp_wf
  all_goals simp only [CRITSECTSZ] at *
  all_goals (try split) <;> omega
end

/-! ## `main` -/

/-- Results of the system calls made by a process running `main`, and the
addresses it uses: all inputs of the embedding. -/
structure Env where
  /-- Address of the local `struct lock l`. -/
  l : Nat
  /-- Return value of `pipe(&pipes[0])`. -/
  pipeRet : Int
  /-- Read end `pipes[0]`. -/
  pipes0 : Int
  /-- Write end `pipes[1]`. -/
  pipes1 : Int
  /-- Return value of `lock_create(&l, LOCK_BLOCK)` (used when `LOCKS_IMPLEMENTED`). -/
  lockCreateRet : Int
  /-- Return value of the `i`-th call of `fork()`. -/
  forkRet : Nat → Int
  /-- The bytes delivered by the pipe before end of file. -/
  stream : List Byte
  /-- Return value of the `i`-th call of `wait()`. -/
  waitRet : Nat → Int

/-- Lines 55-57: `for (i = 0 ; i < NCHILDREN ; i++) data[i] = (char)(first + i);`
started at the given `i` on the array contents `data`. -/
def fillData (i : Nat) (data : Nat → Byte) : Nat → Byte :=
  if i < NCHILDREN then
    fillData (i + 1) (Function.update data i (toChar (first + (i : Int))))
  else data
termination_by NCHILDREN - i

/-- The array `data` after the loop of lines 55-57 (the contents before the
loop are indeterminate; every slot below `NCHILDREN` is overwritten). -/
def data : Nat → Byte := fillData 0 (fun _ => 0)

/-- Value of the expression `LOCK_CREATE(&l, LOCK_BLOCK)` on line 64: the result
of `lock_create` when `LOCKS_IMPLEMENTED`, otherwise the value of
`compilehack++`, that is of `compilehack` before its first increment. -/
def LOCK_CREATE_value (locksImplemented : Bool) (env : Env) : Int :=
  if locksImplemented then env.lockCreateRet else compilehack0

/-- Lines 91-100: the loop `for (i = 0 ; i < NCHILDREN ; i++) if (wait() < 0) ...`
started at the given `i`, followed by `LOCK_DEL(&l); exit();`.  Here `l` is the
address of the lock and `waitRet j` the return value of the `j`-th `wait()`. -/
def main_waits (l : Nat) (waitRet : Nat → Int) (i : Nat) : List Op :=
  if i < NCHILDREN then
    if waitRet i < 0 then
      [Op.wait (waitRet i), Op.printf 1 "Wait error\n", Op.exit]
    else Op.wait (waitRet i) :: main_waits l waitRet (i + 1)
  else [Op.LOCK_DEL l, Op.exit]
termination_by NCHILDREN - i

/-- Lines 69-100: the loop `for (i = 0 ; i < NCHILDREN ; i++) if (fork() == 0) child(...)`
started at the given `i`, followed by `close(pipes[1])`, the monitor and the
rest of `main`.  In the process where `fork` returns `0` the call of `child`
does not return. -/
def main_forks (env : Env) (i : Nat) : List Op :=
  if i < NCHILDREN then
    if env.forkRet i = 0 then
      Op.fork (env.forkRet i) :: child env.l env.pipes1 (data i)
    else Op.fork (env.forkRet i) :: main_forks env (i + 1)
  else Op.close env.pipes1 :: (monitorWhile env.pipes0 env.stream ++ main_waits env.l env.waitRet 0)
termination_by NCHILDREN - i

/-- The function `main` of `lock_example.c`, compiled with or without
`LOCKS_IMPLEMENTED`: the operations of one process running it. -/
def main (locksImplemented : Bool) (env : Env) : List Op :=
  if env.pipeRet ≠ 0 then
    [Op.pipe env.pipeRet, Op.printf 1 "Pipe error\n", Op.exit]
  else if LOCK_CREATE_value locksImplemented env < 0 then
    [Op.pipe env.pipeRet, Op.LOCK_CREATE env.l lock_type_t.LOCK_BLOCK,
      Op.printf 1 "Lock creation error\n", Op.exit]
  else
    Op.pipe env.pipeRet :: Op.LOCK_CREATE env.l lock_type_t.LOCK_BLOCK :: main_forks env 0

/-- A sample environment used to exercise the statements: lock address `7`,
pipe ends `3` and `4`, and the given results and stream. -/
def sampleEnv (pipeRet lockCreateRet : Int) (forkRet : Nat → Int) (stream : List Byte)
    (waitRet : Nat → Int) : Env :=
  { l := 7, pipeRet := pipeRet, pipes0 := 3, pipes1 := 4, lockCreateRet := lockCreateRet,
    forkRet := forkRet, stream := stream, waitRet := waitRet }

/-! ## Vocabulary of the claims about the monitor -/

/-- The stream cut into groups of `k` bytes taken consecutively from its start
(the last group is shorter when the length is not a multiple of `k`). -/
def groups (k : Nat) (s : List Byte) : List (List Byte) :=
  if k = 0 ∨ s = [] then [] else s.take k :: groups k (s.drop k)
termination_by s.length
decreasing_by
  simp_wf
  rename_i h
  have h1 : s ≠ [] := fun e => h (Or.inr e)
  have h2 : 0 < s.length := List.length_pos.mpr h1
  omega

/-- A group is uniform when all its bytes are equal. -/
def uniform (g : List Byte) : Prop := ∀ x ∈ g, ∀ y ∈ g, x = y

instance (g : List Byte) : Decidable (uniform g) := by
  unfold uniform
  infer_instance

/-- Number of bytes of a group that differ from the first byte of the group. -/
def mismatches : List Byte → Nat
  | [] => 0
  | c :: t => t.countP (fun x => decide (x ≠ c))

/-- A group with its leading `'_'` bytes removed. -/
def stripUnderscores (g : List Byte) : List Byte :=
  g.dropWhile (fun x => decide (x = underscore))

/-- Lines 80-86 on the successive bytes of `g`, starting with the given value
of `fst`: the body of the `for` loop without its counter. -/
def forOps (rfd : Int) : Byte → List Byte → List Op
  | _, [] => []
  | fst, c :: rest =>
    Op.read rfd (some c) ::
      (if fst = underscore then Op.fst_set c :: forOps rfd c rest
       else if fst ≠ c then RACE :: forOps rfd fst rest
       else forOps rfd fst rest)

/-- What the claims say the monitor does on one group of worker markers: `fst`
is reset, the first byte is read and recorded in `fst`, and each later byte is
read and reported with `RACE` exactly when it differs from the first. -/
def groupOps (rfd : Int) : List Byte → List Op
  | [] => [Op.fst_reset]
  | c :: t =>
    Op.fst_reset :: Op.read rfd (some c) :: Op.fst_set c ::
      t.flatMap (fun x => if x ≠ c then [Op.read rfd (some x), RACE] else [Op.read rfd (some x)])

/-- Lines 80-86 with the comparison `else if (fst != c) printf(...)` deleted, on
the successive bytes of `g` from the given value of `fst`: each byte is read,
and recorded in `fst` when `fst` is still `'_'`; nothing else happens. -/
def quietOps (rfd : Int) : Byte → List Byte → List Op
  | _, [] => []
  | fst, c :: rest =>
    Op.read rfd (some c) ::
      (if fst = underscore then Op.fst_set c :: quietOps rfd c rest
       else quietOps rfd fst rest)

/-- Whether an operation is something else than the diagnostic `RACE`. -/
def notRACE (op : Op) : Bool := decide (op ≠ RACE)

/-- The reads of one group with the reset that precedes them, nothing else. -/
def groupReads (rfd : Int) (g : List Byte) : List Op :=
  Op.fst_reset :: g.map (fun c => Op.read rfd (some c))

/-- The end of the monitor after `n` bytes: the `read` that returns `0`,
preceded by the reset of a new `while` iteration when `n` bytes fill whole groups. -/
def monitorEnd (rfd : Int) (n : Nat) : List Op :=
  if n % CRITSECTSZ = 0 then [Op.fst_reset, Op.read rfd none] else [Op.read rfd none]

/-- Whether an operation is a `read` or the reset at the top of the `while` body. -/
def isReadOrReset : Op → Bool
  | Op.read _ _ => true
  | Op.fst_reset => true
  | _ => false

/-- The result of a `wait()` call, `none` for any other operation. -/
def waitResult : Op → Option Int
  | Op.wait r => some r
  | _ => none

/-- The results of the `wait()` calls of a trace, in order. -/
def waitResults (tr : List Op) : List Int :=
  tr.filterMap waitResult

/-- The operations the monitor loop can perform. -/
def isMonitorOp : Op → Bool
  | Op.read _ _ => true
  | Op.fst_reset => true
  | Op.fst_set _ => true
  | Op.printf _ _ => true
  | _ => false

/-- Whether an operation is a use of `LOCK_DEL`. -/
def isLockDel : Op → Bool
  | Op.LOCK_DEL _ => true
  | _ => false

/-! ## `lock.c` -/

/-- The function `lock_create` of `lock.c`, over the system call `slock_create`
(a function from the kernel state and the argument to the result and the new
kernel state). -/
def lock_create {σ : Type} (slock_create : σ → lock_type_t → Int × σ)
    (k : σ) (type : lock_type_t) : Int × σ :=
  slock_create k type

/-- The function `lock_take` of `lock.c`, over the system call `slock_take`. -/
def lock_take {σ : Type} (slock_take : σ → Int → Int × σ) (k : σ) (lockid : Int) : Int × σ :=
  slock_take k lockid

/-- The function `lock_release` of `lock.c`, over the system call `slock_release`. -/
def lock_release {σ : Type} (slock_release : σ → Int → Int × σ)
    (k : σ) (lockid : Int) : Int × σ :=
  slock_release k lockid

/-- The function `lock_delete` of `lock.c`, over the system call `slock_delete`:
a `void` function, the value of `slock_delete(lockid)` is dropped. -/
def lock_delete {σ : Type} (slock_delete : σ → Int → Int × σ)
    (k : σ) (lockid : Int) : Unit × σ :=
  ((), (slock_delete k lockid).2)

/-! ## The lock of the specification -/

/-- State of a lock (`FREE` or `HELD`). -/
inductive LockState where
  | FREE
  | HELD
  deriving DecidableEq, Repr

/-- Modelled from the spec: the lock object of the kernel's lock table (the
kernel side, `slock_*`, is not part of the sources): its type, state, owner
and queue of suspended requesters in arrival order. -/
structure Lock where
  type : lock_type_t
  state : LockState
  owner : Option Nat
  wait_queue : List Nat
  deriving DecidableEq, Repr

/-- Success code of the modelled system calls. -/
def OK : Int := 0

/-- Error code of the modelled system calls. -/
def ERROR : Int := -1

/-- Modelled from the spec: a lock as `create` leaves it, `FREE` with an empty queue. -/
def Lock.fresh (type : lock_type_t) : Lock :=
  { type := type, state := LockState.FREE, owner := none, wait_queue := [] }

/-- Modelled from the spec: `take` by `caller`, kernel side missing from the
sources.  On a `FREE` lock the caller becomes owner at once (`true`); on a
`HELD` lock the caller is appended to the wait queue and suspended (`false`). -/
def Lock.take (lk : Lock) (caller : Nat) : Lock × Bool :=
  if lk.state = LockState.FREE then
    ({ lk with state := LockState.HELD, owner := some caller }, true)
  else
    ({ lk with wait_queue := lk.wait_queue ++ [caller] }, false)

/-- Modelled from the spec: `release` by `caller`, kernel side missing from the
sources.  It requires the caller to be the owner (otherwise `ERROR`, state
unchanged); with a non-empty queue the head becomes owner and is the one
process woken, otherwise the lock becomes `FREE`. -/
def Lock.release (lk : Lock) (caller : Nat) : Lock × Option Nat × Int :=
  if lk.state = LockState.HELD ∧ lk.owner = some caller then
    match lk.wait_queue with
    | [] => ({ lk with state := LockState.FREE, owner := none }, none, OK)
    | h :: q => ({ lk with owner := some h, wait_queue := q }, some h, OK)
  else (lk, none, ERROR)

/-- Modelled from the spec: `delete(id)` on the lock table, kernel side missing
from the sources.  It fails on an id that names no live lock and on a lock that
is `HELD` or has waiters; otherwise the slot is reclaimed. -/
def slock_delete_spec (table : List (Option Lock)) (lockid : Int) : Int × List (Option Lock) :=
  if lockid < 0 then (ERROR, table)
  else
    match table[lockid.toNat]? with
    | some (some lk) =>
      if lk.state = LockState.FREE ∧ lk.wait_queue = [] then
        (OK, table.set lockid.toNat none)
      else (ERROR, table)
    | _ => (ERROR, table)

/-! ## Interleavings of the workers -/

/-- A worker process: the operations it has still to perform (`child` is a
straight-line sequence of operations, none of whose results it inspects), its
own copy of the global `compilehack`, and whether it is suspended inside `take`. -/
structure Proc where
  ops : List Op
  compilehack : Int
  suspended : Bool

/-- The workers, the one lock of the harness and the bytes that have arrived on
the pipe, oldest first. -/
structure Sys where
  procs : Nat → Proc
  lock : Lock
  pipe : List Byte

/-- Modelled from the spec: the scheduling of the worker processes, the pipe
and the lock are kernel services missing from the sources.  Worker `w` is
scheduled and performs its next operation; every operation is atomic (each
`write` is of one byte, appended to the pipe).  A worker that has finished or
is suspended does nothing.  Without `LOCKS_IMPLEMENTED` the macros `LOCK_TAKE`
and `LOCK_RELEASE` are `compilehack++` on the worker's own copy of the global
(lines 20-21); with it they act on the lock of the harness as `Lock.take` and
`Lock.release` describe, a woken worker returning from its `LOCK_TAKE`. -/
def step (locksImplemented : Bool) (s : Sys) (w : Nat) : Sys :=
  let p := s.procs w
  if p.suspended then s
  else
    match p.ops with
    | [] => s
    | Op.LOCK_TAKE _ :: rest =>
      if locksImplemented then
        match s.lock.take w with
        | (lk, true) =>
          { s with lock := lk, procs := Function.update s.procs w { p with ops := rest } }
        | (lk, false) =>
          { s with lock := lk, procs := Function.update s.procs w { p with suspended := true } }
      else
        let p1 : Proc := { p with ops := rest, compilehack := p.compilehack + 1 }
        { s with procs := Function.update s.procs w p1 }
    | Op.LOCK_RELEASE _ :: rest =>
      if locksImplemented then
        match s.lock.release w with
        | (lk, none, _) =>
          { s with lock := lk, procs := Function.update s.procs w { p with ops := rest } }
        | (lk, some h, _) =>
          let procs1 := Function.update s.procs w { p with ops := rest }
          let ph : Proc := { procs1 h with ops := (procs1 h).ops.tail, suspended := false }
          { s with lock := lk, procs := Function.update procs1 h ph }
      else
        let p1 : Proc := { p with ops := rest, compilehack := p.compilehack + 1 }
        { s with procs := Function.update s.procs w p1 }
    | Op.write _ c :: rest =>
      { s with pipe := s.pipe ++ [c], procs := Function.update s.procs w { p with ops := rest } }
    | Op.exit :: _ =>
      { s with procs := Function.update s.procs w { p with ops := [] } }
    | _ :: rest =>
      { s with procs := Function.update s.procs w { p with ops := rest } }

/-- The system after the workers have been scheduled in the order `sched`. -/
def run (locksImplemented : Bool) (sched : List Nat) (s : Sys) : Sys :=
  sched.foldl (step locksImplemented) s

/-- The system right after the forks of `main`: worker `i < NCHILDREN` is about
to execute `child(&l, pipes[1], data[i])`, the lock is free and the pipe empty.
Each worker inherits the parent's `compilehack`, incremented once by the
`LOCK_CREATE` of line 64 (the field has a meaning only without
`LOCKS_IMPLEMENTED`). -/
def initSys (l : Nat) (pipefd : Int) : Sys :=
  { procs := fun i =>
      if i < NCHILDREN then
        { ops := child l pipefd (data i), compilehack := compilehack0 + 1, suspended := false }
      else { ops := [], compilehack := compilehack0 + 1, suspended := false }
    lock := Lock.fresh lock_type_t.LOCK_BLOCK
    pipe := [] }

/-- What is left of `child(l, fd, m)` at the top of its loop when `n` critical
sections remain: `n` bursts, then `exit()`. -/
def rem (l : Nat) (fd : Int) (m : Byte) (n : Nat) : List Op :=
  (List.replicate n (burst l fd m)).flatten ++ [Op.exit]

/-- Worker `w` is between two critical sections (or has exited). -/
def AtBoundary (l : Nat) (fd : Int) (w : Nat) (p : Proc) : Prop :=
  p.suspended = false ∧ (p.ops = [] ∨ ∃ n, p.ops = rem l fd (data w) n)

/-- Worker `w` is suspended inside `LOCK_TAKE`, which is still its next operation. -/
def Waiting (l : Nat) (fd : Int) (w : Nat) (p : Proc) : Prop :=
  p.suspended = true ∧ ∃ n, p.ops = Op.LOCK_TAKE l ::
    (List.replicate CRITSECTSZ (Op.write fd (data w)) ++ Op.LOCK_RELEASE l :: rem l fd (data w) n)

/-- Worker `w` is inside its critical section with `k` writes still to do. -/
def Holding (l : Nat) (fd : Int) (w : Nat) (p : Proc) (k : Nat) : Prop :=
  p.suspended = false ∧ ∃ n, p.ops
    = List.replicate k (Op.write fd (data w)) ++ Op.LOCK_RELEASE l :: rem l fd (data w) n

/-- The bytes of whole critical sections whose markers are `ms`, in order. -/
def wholeBursts (ms : List Byte) : List Byte :=
  ms.flatMap (fun m => List.replicate CRITSECTSZ m)

/-- Invariant of the interleavings with `LOCKS_IMPLEMENTED`: the pipe holds whole
bursts followed by the part already written of the owner's burst; the workers
in the wait queue are suspended at `LOCK_TAKE`, the owner is inside its
critical section, every other worker is between critical sections. -/
def Inv (l : Nat) (fd : Int) (s : Sys) : Prop :=
  ∃ (ms : List Byte) (tail : List Byte),
    s.pipe = wholeBursts ms ++ tail
    ∧ (∀ w, w ∉ s.lock.wait_queue → s.lock.owner ≠ some w → AtBoundary l fd w (s.procs w))
    ∧ (∀ w ∈ s.lock.wait_queue, Waiting l fd w (s.procs w) ∧ s.lock.owner ≠ some w)
    ∧ s.lock.wait_queue.Nodup
    ∧ (s.lock.state = LockState.FREE →
        s.lock.owner = none ∧ s.lock.wait_queue = [] ∧ tail = [])
    ∧ (s.lock.state = LockState.HELD →
        ∃ o k, s.lock.owner = some o ∧ k ≤ CRITSECTSZ ∧ Holding l fd o (s.procs o) k
          ∧ tail = List.replicate (CRITSECTSZ - k) (data o))

/-! ## Properties of `child` -/

theorem childWrites_zero (pipefd : Int) (m : Byte) :
    childWrites pipefd m 0 = List.replicate CRITSECTSZ (Op.write pipefd m) := by
  simp [childWrites, CRITSECTSZ, List.replicate]

theorem childLoop_eq (lock : Nat) (pipefd : Int) (m : Byte) :
    ∀ (n i : Nat), (DATASZ - i + 2) / 3 = n →
      childLoop lock pipefd m i = (List.replicate n (burst lock pipefd m)).flatten := by
  intro n
  induction n with
  | zero =>
    intro i h
    have hi : ¬ i < DATASZ := by omega
    rw [childLoop]
    simp [hi]
  | succ n ih =>
    intro i h
    have hi : i < DATASZ := by omega
    rw [childLoop]
    have h2 : (DATASZ - (i + CRITSECTSZ) + 2) / 3 = n := by
      simp only [CRITSECTSZ]
      omega
    simp [hi, ih _ h2, List.replicate_succ, burst, childWrites_zero]

theorem written_append (a b : List Op) : written (a ++ b) = written a ++ written b := by
  induction a with
  | nil => rfl
  | cons x t ih => cases x <;> simp [written, ih]

theorem written_burst (lock : Nat) (pipefd : Int) (m : Byte) :
    written (burst lock pipefd m) = List.replicate CRITSECTSZ m := by
  simp [burst, written, CRITSECTSZ, List.replicate]

theorem written_bursts (lock : Nat) (pipefd : Int) (m : Byte) (n : Nat) :
    written (List.replicate n (burst lock pipefd m)).flatten = List.replicate (n * CRITSECTSZ) m := by
  induction n with
  | zero => simp [written]
  | succ n ih =>
    rw [List.replicate_succ, List.flatten_cons, written_append, ih, written_burst,
      ← List.replicate_add]
    congr 1
    ring

theorem child_eq_bursts (lock : Nat) (pipefd : Int) (m : Byte) :
    child lock pipefd m = (List.replicate 1366 (burst lock pipefd m)).flatten ++ [Op.exit] := by
  rw [child, childLoop_eq lock pipefd m 1366 0 (by decide)]

theorem written_child (lock : Nat) (pipefd : Int) (m : Byte) :
    written (child lock pipefd m) = List.replicate 4098 m := by
  have h1 : written [Op.exit] = [] := rfl
  have h2 : 1366 * CRITSECTSZ = 4098 := by decide
  rw [child_eq_bursts, written_append, written_bursts, h1, h2, List.append_nil]

theorem mem_child (lock : Nat) (pipefd : Int) (m : Byte) (op : Op)
    (h : op ∈ child lock pipefd m) :
    op = Op.LOCK_TAKE lock ∨ op = Op.write pipefd m ∨ op = Op.LOCK_RELEASE lock
      ∨ op = Op.exit := by
  rw [child_eq_bursts] at h
  simp only [List.mem_append, List.mem_flatten, List.mem_replicate, List.mem_singleton] at h
  rcases h with ⟨b, ⟨_, hb⟩, hop⟩ | h
  · subst hb
    simp only [burst, List.mem_cons, List.mem_append, List.mem_replicate,
      List.mem_singleton, List.not_mem_nil, or_false] at hop
    rcases hop with e | ⟨_, e⟩ | e
    · exact Or.inl e
    · exact Or.inr (Or.inl e)
    · exact Or.inr (Or.inr (Or.inl e))
  · exact Or.inr (Or.inr (Or.inr h))

/-- C4: for every marker `m`, `child lock pipefd m` performs exactly
`ceil(DATASZ / CRITSECTSZ) = 1366` repetitions of take, `CRITSECTSZ = 3` one-byte
writes of `m` to `pipefd`, release, and then `exit`; the bytes it writes are
`4098` copies of `m`, with `DATASZ = 4096`. -/
theorem child_trace (lock : Nat) (pipefd : Int) (m : Byte) :
    child lock pipefd m
        = (List.replicate 1366 (burst lock pipefd m)).flatten ++ [Op.exit]
      ∧ burst lock pipefd m
        = [Op.LOCK_TAKE lock, Op.write pipefd m, Op.write pipefd m, Op.write pipefd m,
            Op.LOCK_RELEASE lock]
      ∧ (DATASZ + CRITSECTSZ - 1) / CRITSECTSZ = 1366
      ∧ CRITSECTSZ = 3
      ∧ DATASZ = 4096
      ∧ written (child lock pipefd m) = List.replicate 4098 m := by
  exact ⟨child_eq_bursts lock pipefd m, by simp [burst, CRITSECTSZ, List.replicate],
    by decide, rfl, by decide, written_child lock pipefd m⟩


/-! ## Properties of the monitor loop -/

theorem monitorFor_done (rfd : Int) (fst : Byte) (input : List Byte) :
    monitorFor rfd fst CRITSECTSZ input = monitorWhile rfd input := by
  rw [monitorFor.eq_def]
  simp

theorem monitorFor_full (rfd : Int) :
    ∀ (g : List Byte) (fst : Byte) (cnt : Nat) (rest : List Byte),
      cnt + g.length = CRITSECTSZ →
      monitorFor rfd fst cnt (g ++ rest) = forOps rfd fst g ++ monitorWhile rfd rest := by
  intro g
  induction g with
  | nil =>
    intro fst cnt rest h
    have : cnt = CRITSECTSZ := by simpa using h
    subst this
    simp [forOps, monitorFor_done]
  | cons c t ih =>
    intro fst cnt rest h
    have hlt : cnt < CRITSECTSZ := by
      simp only [List.length_cons] at h
      omega
    have h1 : cnt + 1 + t.length = CRITSECTSZ := by
      simp only [List.length_cons] at h
      omega
    rw [List.cons_append, monitorFor]
    simp only [hlt, if_true, forOps]
    split_ifs <;> simp [ih _ _ _ h1]

theorem monitorFor_short (rfd : Int) :
    ∀ (g : List Byte) (fst : Byte) (cnt : Nat),
      cnt + g.length < CRITSECTSZ →
      monitorFor rfd fst cnt g = forOps rfd fst g ++ [Op.read rfd none] := by
  intro g
  induction g with
  | nil =>
    intro fst cnt h
    have hlt : cnt < CRITSECTSZ := by simpa using h
    rw [monitorFor]
    simp [hlt, forOps]
  | cons c t ih =>
    intro fst cnt h
    have hlt : cnt < CRITSECTSZ := by
      simp only [List.length_cons] at h
      omega
    have h1 : cnt + 1 + t.length < CRITSECTSZ := by
      simp only [List.length_cons] at h
      omega
    rw [monitorFor]
    simp only [hlt, if_true, forOps]
    split_ifs <;> simp [ih _ _ h1]

theorem groups_nil (k : Nat) : groups k [] = [] := by
  rw [groups]
  simp

theorem groups_step (k : Nat) (s : List Byte) (hk : k ≠ 0) (hs : s ≠ []) :
    groups k s = s.take k :: groups k (s.drop k) := by
  rw [groups]
  simp [hk, hs]

theorem monitorEnd_drop (rfd : Int) (s : List Byte) (h : CRITSECTSZ ≤ s.length) :
    monitorEnd rfd (s.drop CRITSECTSZ).length = monitorEnd rfd s.length := by
  have h3 : CRITSECTSZ = 3 := rfl
  have : (s.length - CRITSECTSZ) % CRITSECTSZ = s.length % CRITSECTSZ := by
    rw [h3] at h ⊢
    omega
  simp [monitorEnd, this]

/-- The monitor, group by group: each group contributes the reset and the
operations of the `for` body on its bytes. -/
theorem monitorWhile_groups (rfd : Int) :
    ∀ (n : Nat) (s : List Byte), s.length ≤ n →
      monitorWhile rfd s
        = (groups CRITSECTSZ s).flatMap (fun g => Op.fst_reset :: forOps rfd underscore g)
          ++ monitorEnd rfd s.length := by
  intro n
  induction n with
  | zero =>
    intro s h
    have hs : s = [] := List.length_eq_zero.mp (by omega)
    subst hs
    rw [monitorWhile, monitorFor]
    simp [groups_nil, monitorEnd, CRITSECTSZ]
  | succ n ih =>
    intro s h
    have h3 : CRITSECTSZ = 3 := rfl
    by_cases hs : s = []
    · subst hs
      rw [monitorWhile, monitorFor]
      simp [groups_nil, monitorEnd, CRITSECTSZ]
    by_cases hlen : s.length < CRITSECTSZ
    · have hpos : 0 < s.length := List.length_pos.mpr hs
      have htake : s.take CRITSECTSZ = s := List.take_of_length_le (by omega)
      have hdrop : s.drop CRITSECTSZ = [] := List.drop_of_length_le (by omega)
      have hmod : ¬ s.length % CRITSECTSZ = 0 := by
        rw [h3] at hlen ⊢
        omega
      rw [monitorWhile, monitorFor_short rfd s underscore 0 (by omega),
        groups_step _ _ (by decide) hs, htake, hdrop, groups_nil]
      simp [monitorEnd, hmod]
    · have hlen2 : CRITSECTSZ ≤ s.length := by omega
      have hsplit : s = s.take CRITSECTSZ ++ s.drop CRITSECTSZ := (List.take_append_drop _ _).symm
      have htl : (s.take CRITSECTSZ).length = CRITSECTSZ := by
        rw [List.length_take]
        omega
      have hdl : (s.drop CRITSECTSZ).length ≤ n := by
        rw [List.length_drop, h3]
        omega
      rw [monitorWhile]
      conv_lhs => rw [hsplit]
      rw [monitorFor_full rfd _ underscore 0 _ (by omega), ih _ hdl,
        groups_step _ _ (by decide) hs, monitorEnd_drop rfd s hlen2]
      simp


theorem uniform_cons (c : Byte) (t : List Byte) : uniform (c :: t) ↔ ∀ x ∈ t, x = c := by
  unfold uniform
  constructor
  · intro h x hx
    exact h x (List.mem_cons_of_mem _ hx) c (List.mem_cons_self _ _)
  · intro h x hx y hy
    have hx1 : x = c := by
      rcases List.mem_cons.mp hx with e | e
      · exact e
      · exact h x e
    have hy1 : y = c := by
      rcases List.mem_cons.mp hy with e | e
      · exact e
      · exact h y e
    rw [hx1, hy1]

theorem RACE_ne_read (rfd : Int) (r : Option Byte) : RACE ≠ Op.read rfd r := by
  simp [RACE]

theorem RACE_ne_fst_set (c : Byte) : RACE ≠ Op.fst_set c := by
  simp [RACE]

theorem RACE_ne_fst_reset : RACE ≠ Op.fst_reset := by
  simp [RACE]

theorem race_forOps_set (rfd : Int) (fst : Byte) (hf : fst ≠ underscore) :
    ∀ g : List Byte, RACE ∈ forOps rfd fst g ↔ ∃ x ∈ g, x ≠ fst := by
  intro g
  induction g with
  | nil => simp [forOps]
  | cons c t ih =>
    simp only [forOps, hf, if_false]
    by_cases hc : fst = c
    · subst hc
      simp [RACE_ne_read, ih]
    · have hc2 : c ≠ fst := fun e => hc e.symm
      simp [hc, hc2]

theorem race_forOps_reset (rfd : Int) :
    ∀ g : List Byte, RACE ∈ forOps rfd underscore g ↔ ¬ uniform (stripUnderscores g) := by
  intro g
  induction g with
  | nil => simp [forOps, stripUnderscores, uniform]
  | cons c t ih =>
    simp only [forOps, if_true]
    by_cases hc : c = underscore
    · subst hc
      have : stripUnderscores (underscore :: t) = stripUnderscores t := by
        simp [stripUnderscores, List.dropWhile]
      rw [this, ← ih]
      simp [RACE_ne_read, RACE_ne_fst_set]
    · have : stripUnderscores (c :: t) = c :: t := by
        simp [stripUnderscores, List.dropWhile, hc]
      rw [this, uniform_cons]
      simp [RACE_ne_read, RACE_ne_fst_set, race_forOps_set rfd c hc]

theorem race_not_mem_monitorEnd (rfd : Int) (n : Nat) : RACE ∉ monitorEnd rfd n := by
  unfold monitorEnd
  split_ifs <;> simp [RACE_ne_read, RACE_ne_fst_reset]

theorem race_monitorWhile (rfd : Int) (s : List Byte) :
    RACE ∈ monitorWhile rfd s ↔ ∃ g ∈ groups CRITSECTSZ s, ¬ uniform (stripUnderscores g) := by
  rw [monitorWhile_groups rfd s.length s (le_refl _)]
  simp only [List.mem_append, List.mem_flatMap, List.mem_cons, RACE_ne_fst_reset, false_or,
    race_forOps_reset, race_not_mem_monitorEnd, or_false]

theorem mem_of_mem_groups (k : Nat) :
    ∀ (n : Nat) (s : List Byte), s.length ≤ n → ∀ g ∈ groups k s, ∀ x ∈ g, x ∈ s := by
  intro n
  induction n with
  | zero =>
    intro s h g hg
    have hs : s = [] := List.length_eq_zero.mp (by omega)
    subst hs
    simp [groups_nil] at hg
  | succ n ih =>
    intro s h g hg x hx
    by_cases hk : k = 0
    · subst hk
      rw [groups] at hg
      simp at hg
    by_cases hs : s = []
    · subst hs
      simp [groups_nil] at hg
    rw [groups_step k s hk hs] at hg
    rcases List.mem_cons.mp hg with e | e
    · subst e
      exact List.mem_of_mem_take hx
    · have hpos : 0 < s.length := List.length_pos.mpr hs
      have hl : (s.drop k).length ≤ n := by
        rw [List.length_drop]
        omega
      exact List.mem_of_mem_drop (ih _ hl g e x hx)

theorem stripUnderscores_eq (g : List Byte) (h : underscore ∉ g) : stripUnderscores g = g := by
  cases g with
  | nil => rfl
  | cons c t =>
    have hc : c ≠ underscore := fun e => h (by simp [e])
    simp [stripUnderscores, List.dropWhile, hc]


theorem flatMap_congr_mem {α β : Type} (L : List α) (f f' : α → List β)
    (h : ∀ g ∈ L, f g = f' g) : L.flatMap f = L.flatMap f' := by
  induction L with
  | nil => rfl
  | cons a t ih =>
    simp only [List.flatMap_cons]
    rw [h a (List.mem_cons_self _ _), ih (fun g hg => h g (List.mem_cons_of_mem _ hg))]

theorem forOps_set_eq (rfd : Int) (fst : Byte) (hf : fst ≠ underscore) :
    ∀ t : List Byte, forOps rfd fst t
      = t.flatMap (fun x => if x ≠ fst then [Op.read rfd (some x), RACE]
          else [Op.read rfd (some x)]) := by
  intro t
  induction t with
  | nil => rfl
  | cons c t ih =>
    simp only [forOps, hf, if_false, List.flatMap_cons]
    by_cases hc : fst = c
    · subst hc
      simp [ih]
    · have hc2 : c ≠ fst := fun e => hc e.symm
      simp [hc, hc2, ih]

theorem groupOps_eq (rfd : Int) (g : List Byte) (h : underscore ∉ g) :
    Op.fst_reset :: forOps rfd underscore g = groupOps rfd g := by
  cases g with
  | nil => rfl
  | cons c t =>
    have hc : c ≠ underscore := fun e => h (by simp [e])
    simp only [forOps, if_true, groupOps]
    rw [forOps_set_eq rfd c hc]

theorem count_race_tail (rfd : Int) (c : Byte) :
    ∀ t : List Byte,
      (t.flatMap (fun x => if x ≠ c then [Op.read rfd (some x), RACE]
          else [Op.read rfd (some x)])).count RACE
        = t.countP (fun x => decide (x ≠ c)) := by
  intro t
  induction t with
  | nil => rfl
  | cons x t ih =>
    simp only [List.flatMap_cons, List.count_append, ih, List.countP_cons]
    by_cases hx : x = c
    · subst hx
      simp [List.count_cons, RACE]
    · simp [hx, List.count_cons, RACE]
      omega

theorem count_race_groupOps (rfd : Int) (g : List Byte) :
    (groupOps rfd g).count RACE = mismatches g := by
  cases g with
  | nil => simp [groupOps, mismatches, List.count_cons, RACE]
  | cons c t =>
    simp only [groupOps, mismatches, List.count_cons, count_race_tail]
    simp [RACE]

theorem count_race_flatMap (rfd : Int) (L : List (List Byte)) :
    (L.flatMap (groupOps rfd)).count RACE = (L.map mismatches).sum := by
  induction L with
  | nil => rfl
  | cons g t ih =>
    simp [List.flatMap_cons, List.count_append, ih, count_race_groupOps]

theorem count_race_monitorEnd (rfd : Int) (n : Nat) : (monitorEnd rfd n).count RACE = 0 :=
  List.count_eq_zero.mpr (race_not_mem_monitorEnd rfd n)

theorem data_eq (i : Nat) (h : i < NCHILDREN) : data i = 97 + (i : Int) := by
  have h8 : NCHILDREN = 8 := rfl
  rw [h8] at h
  interval_cases i <;>
    simp [data, fillData, NCHILDREN, Function.update, toChar, first]

theorem data_ne_underscore (i : Nat) (h : i < NCHILDREN) : data i ≠ underscore := by
  rw [data_eq i h]
  unfold underscore
  intro e
  have : (0 : Int) ≤ (i : Int) := Int.ofNat_nonneg i
  linarith


/-! ## Properties of `main` -/

theorem main_waits_ok (l : Nat) (w : Nat → Int) :
    ∀ (n i : Nat), i + n = NCHILDREN → (∀ j, i ≤ j → j < NCHILDREN → 0 ≤ w j) →
      main_waits l w i
        = (List.range' i n).map (fun j => Op.wait (w j)) ++ [Op.LOCK_DEL l, Op.exit] := by
  intro n
  induction n with
  | zero =>
    intro i hi _
    have : ¬ i < NCHILDREN := by omega
    rw [main_waits]
    simp [this]
  | succ n ih =>
    intro i hi hw
    have hlt : i < NCHILDREN := by omega
    have hwi : ¬ w i < 0 := not_lt.mpr (hw i (le_refl _) hlt)
    rw [main_waits]
    simp only [hlt, hwi, if_true, if_false, List.range'_succ, List.map_cons, List.cons_append]
    rw [ih (i + 1) (by omega) (fun j h1 h2 => hw j (by omega) h2)]

theorem main_waits_fail (l : Nat) (w : Nat → Int) (k : Nat) (hk : k < NCHILDREN)
    (hneg : w k < 0) :
    ∀ (n i : Nat), i + n = k → (∀ j, i ≤ j → j < k → 0 ≤ w j) →
      main_waits l w i
        = (List.range' i n).map (fun j => Op.wait (w j))
          ++ [Op.wait (w k), Op.printf 1 "Wait error\n", Op.exit] := by
  intro n
  induction n with
  | zero =>
    intro i hi _
    have : i = k := by omega
    subst this
    rw [main_waits]
    simp [hk, hneg]
  | succ n ih =>
    intro i hi hw
    have hlt : i < NCHILDREN := by omega
    have hwi : ¬ w i < 0 := not_lt.mpr (hw i (le_refl _) (by omega))
    rw [main_waits]
    simp only [hlt, hwi, if_true, if_false, List.range'_succ, List.map_cons, List.cons_append]
    rw [ih (i + 1) (by omega) (fun j h1 h2 => hw j (by omega) h2)]

theorem main_forks_parent (env : Env) :
    ∀ (n i : Nat), i + n = NCHILDREN → (∀ j, i ≤ j → j < NCHILDREN → env.forkRet j ≠ 0) →
      main_forks env i
        = (List.range' i n).map (fun j => Op.fork (env.forkRet j))
          ++ Op.close env.pipes1
            :: (monitorWhile env.pipes0 env.stream ++ main_waits env.l env.waitRet 0) := by
  intro n
  induction n with
  | zero =>
    intro i hi _
    have : ¬ i < NCHILDREN := by omega
    rw [main_forks]
    simp [this]
  | succ n ih =>
    intro i hi hf
    have hlt : i < NCHILDREN := by omega
    have hfi : env.forkRet i ≠ 0 := hf i (le_refl _) hlt
    rw [main_forks]
    simp only [hlt, hfi, if_true, if_false, List.range'_succ, List.map_cons, List.cons_append]
    rw [ih (i + 1) (by omega) (fun j h1 h2 => hf j (by omega) h2)]

theorem main_forks_child (env : Env) (k : Nat) (hk : k < NCHILDREN)
    (hzero : env.forkRet k = 0) :
    ∀ (n i : Nat), i + n = k → (∀ j, i ≤ j → j < k → env.forkRet j ≠ 0) →
      main_forks env i
        = (List.range' i n).map (fun j => Op.fork (env.forkRet j))
          ++ Op.fork (env.forkRet k) :: child env.l env.pipes1 (data k) := by
  intro n
  induction n with
  | zero =>
    intro i hi _
    have : i = k := by omega
    subst this
    rw [main_forks]
    simp [hk, hzero]
  | succ n ih =>
    intro i hi hf
    have hlt : i < NCHILDREN := by omega
    have hfi : env.forkRet i ≠ 0 := hf i (le_refl _) (by omega)
    rw [main_forks]
    simp only [hlt, hfi, if_true, if_false, List.range'_succ, List.map_cons, List.cons_append]
    rw [ih (i + 1) (by omega) (fun j h1 h2 => hf j (by omega) h2)]

theorem main_setup_ok (cfg : Bool) (env : Env) (hpipe : env.pipeRet = 0)
    (hlock : 0 ≤ LOCK_CREATE_value cfg env) :
    main cfg env
      = Op.pipe env.pipeRet :: Op.LOCK_CREATE env.l lock_type_t.LOCK_BLOCK
          :: main_forks env 0 := by
  have : ¬ LOCK_CREATE_value cfg env < 0 := not_lt.mpr hlock
  simp [main, hpipe, this]


/-! ## Claims about the monitor -/

/-- C3 (as stated, refuted): on the stream `'_' 'a' 'a'` the single group
contains two different bytes, yet the monitor prints no `RACE!!!`. -/
theorem monitor_misses_underscore_group :
    ¬ (RACE ∈ monitorWhile 3 [95, 97, 97]
        ↔ ∃ g ∈ groups CRITSECTSZ [95, 97, 97], ¬ uniform g) := by
  intro h
  have hno : RACE ∉ monitorWhile 3 [95, 97, 97] := by
    simp [monitorWhile, monitorFor, CRITSECTSZ, underscore, RACE]
  apply hno
  apply h.mpr
  refine ⟨[95, 97, 97], ?_, by decide⟩
  rw [groups_step _ _ (by decide) (by simp)]
  simp [CRITSECTSZ]

/-- C3 (amended): for every finite stream, the monitor prints `RACE!!!` at least
once iff some group of `CRITSECTSZ` bytes, its leading `'_'` bytes dropped,
contains two different bytes; for a stream without `'_'` this is: iff some
group contains two different bytes. -/
theorem monitor_race_iff (rfd : Int) (s : List Byte) :
    (RACE ∈ monitorWhile rfd s
        ↔ ∃ g ∈ groups CRITSECTSZ s, ¬ uniform (stripUnderscores g))
      ∧ (underscore ∉ s →
          (RACE ∈ monitorWhile rfd s ↔ ∃ g ∈ groups CRITSECTSZ s, ¬ uniform g)) := by
  refine ⟨race_monitorWhile rfd s, ?_⟩
  intro hs
  rw [race_monitorWhile rfd s]
  constructor
  · rintro ⟨g, hg, hu⟩
    have hn : underscore ∉ g := fun hm =>
      hs (mem_of_mem_groups CRITSECTSZ s.length s (le_refl _) g hg _ hm)
    rw [stripUnderscores_eq g hn] at hu
    exact ⟨g, hg, hu⟩
  · rintro ⟨g, hg, hu⟩
    have hn : underscore ∉ g := fun hm =>
      hs (mem_of_mem_groups CRITSECTSZ s.length s (le_refl _) g hg _ hm)
    refine ⟨g, hg, ?_⟩
    rw [stripUnderscores_eq g hn]
    exact hu

/-- Witness of C3 (amended): the stream `'a' 'b' 'b'` has no `'_'`. -/
theorem monitor_race_iff_witness :
    underscore ∉ ([97, 98, 98] : List Byte)
      ∧ (RACE ∈ monitorWhile 3 [97, 98, 98]
          ↔ ∃ g ∈ groups CRITSECTSZ [97, 98, 98], ¬ uniform g) :=
  ⟨by decide, (monitor_race_iff 3 [97, 98, 98]).2 (by decide)⟩

/-- C10: no worker marker is the sentinel `'_'`; hence on every stream made
only of worker markers the monitor does, for each group of `CRITSECTSZ` bytes,
exactly `groupOps` (reset `fst`, read the first byte and record it in `fst`,
then read each later byte and print `RACE!!!` iff it differs from the first),
and the number of `RACE!!!` lines equals the number of bytes that differ from
the first byte of their own group. -/
theorem monitor_sentinel_sound :
    (∀ i, i < NCHILDREN → data i ≠ underscore)
      ∧ ∀ (rfd : Int) (s : List Byte), (∀ c ∈ s, ∃ i, i < NCHILDREN ∧ c = data i) →
          monitorWhile rfd s
              = (groups CRITSECTSZ s).flatMap (groupOps rfd) ++ monitorEnd rfd s.length
            ∧ (monitorWhile rfd s).count RACE = ((groups CRITSECTSZ s).map mismatches).sum := by
  refine ⟨data_ne_underscore, ?_⟩
  intro rfd s hs
  have hus : underscore ∉ s := by
    intro hm
    obtain ⟨i, hi, e⟩ := hs _ hm
    exact data_ne_underscore i hi e.symm
  have heq : monitorWhile rfd s
      = (groups CRITSECTSZ s).flatMap (groupOps rfd) ++ monitorEnd rfd s.length := by
    rw [monitorWhile_groups rfd s.length s (le_refl _)]
    congr 1
    apply flatMap_congr_mem
    intro g hg
    apply groupOps_eq
    intro hm
    exact hus (mem_of_mem_groups CRITSECTSZ s.length s (le_refl _) g hg _ hm)
  refine ⟨heq, ?_⟩
  rw [heq, List.count_append, count_race_flatMap, count_race_monitorEnd, Nat.add_zero]

/-- Witness of C10: the stream `'a' 'b' 'a' 'c'` is made of worker markers. -/
theorem monitor_sentinel_sound_witness :
    (∀ c ∈ ([97, 98, 97, 99] : List Byte), ∃ i, i < NCHILDREN ∧ c = data i)
      ∧ (monitorWhile 3 [97, 98, 97, 99]
            = (groups CRITSECTSZ [97, 98, 97, 99]).flatMap (groupOps 3)
              ++ monitorEnd 3 ([97, 98, 97, 99] : List Byte).length
          ∧ (monitorWhile 3 [97, 98, 97, 99]).count RACE
            = ((groups CRITSECTSZ [97, 98, 97, 99]).map mismatches).sum) :=
  have h : ∀ c ∈ ([97, 98, 97, 99] : List Byte), ∃ i, i < NCHILDREN ∧ c = data i := by
    intro c hc
    simp only [List.mem_cons, List.mem_singleton, List.not_mem_nil, or_false] at hc
    rcases hc with e | e | e | e
    · exact ⟨0, by decide, by rw [e, data_eq 0 (by decide)]; rfl⟩
    · exact ⟨1, by decide, by rw [e, data_eq 1 (by decide)]; rfl⟩
    · exact ⟨0, by decide, by rw [e, data_eq 0 (by decide)]; rfl⟩
    · exact ⟨2, by decide, by rw [e, data_eq 2 (by decide)]; rfl⟩
  ⟨h, monitor_sentinel_sound.2 3 [97, 98, 97, 99] h⟩


/-! ## Claims about `main` -/

/-- C6: if `pipe` returns non-zero, `main` prints "Pipe error" and exits having
created no lock and forked nothing; if lock creation yields a negative value,
`main` prints "Lock creation error" and exits without forking; if the `k`-th
`wait` (the first to fail) returns a negative value, `main` prints "Wait error"
and exits, with no further `wait` and no `LOCK_DEL`. -/
theorem main_early_exit (cfg : Bool) (env : Env) :
    (env.pipeRet ≠ 0 →
        main cfg env = [Op.pipe env.pipeRet, Op.printf 1 "Pipe error\n", Op.exit])
      ∧ (env.pipeRet = 0 → LOCK_CREATE_value cfg env < 0 →
        main cfg env
          = [Op.pipe env.pipeRet, Op.LOCK_CREATE env.l lock_type_t.LOCK_BLOCK,
              Op.printf 1 "Lock creation error\n", Op.exit])
      ∧ (∀ k, k < NCHILDREN → env.pipeRet = 0 → 0 ≤ LOCK_CREATE_value cfg env →
          (∀ i, i < NCHILDREN → env.forkRet i ≠ 0) →
          (∀ j, j < k → 0 ≤ env.waitRet j) → env.waitRet k < 0 →
        main cfg env
          = Op.pipe env.pipeRet :: Op.LOCK_CREATE env.l lock_type_t.LOCK_BLOCK
              :: ((List.range NCHILDREN).map (fun i => Op.fork (env.forkRet i))
                ++ Op.close env.pipes1
                  :: (monitorWhile env.pipes0 env.stream
                    ++ ((List.range k).map (fun j => Op.wait (env.waitRet j))
                      ++ [Op.wait (env.waitRet k), Op.printf 1 "Wait error\n", Op.exit])))) := by
  refine ⟨?_, ?_, ?_⟩
  · intro h
    simp [main, h]
  · intro h1 h2
    simp [main, h1, h2]
  · intro k hk hpipe hlock hfork hw hneg
    rw [main_setup_ok cfg env hpipe hlock,
      main_forks_parent env NCHILDREN 0 (by simp) (fun j _ h2 => hfork j h2),
      main_waits_fail env.l env.waitRet k hk hneg k 0 (by simp) (fun j _ h2 => hw j h2),
      List.range_eq_range', List.range_eq_range']

/-- Witness of C6: a failing `pipe`, a failing `lock_create` (with
`LOCKS_IMPLEMENTED`), and a run whose third `wait` fails. -/
theorem main_early_exit_witness :
    main false (sampleEnv (-1) 0 (fun _ => 1) [] (fun _ => 0))
        = [Op.pipe (-1), Op.printf 1 "Pipe error\n", Op.exit]
      ∧ main true (sampleEnv 0 (-1) (fun _ => 1) [] (fun _ => 0))
        = [Op.pipe 0, Op.LOCK_CREATE 7 lock_type_t.LOCK_BLOCK,
            Op.printf 1 "Lock creation error\n", Op.exit]
      ∧ main false (sampleEnv 0 0 (fun _ => 1) [] (fun j => if j = 2 then -1 else 0))
        = Op.pipe 0 :: Op.LOCK_CREATE 7 lock_type_t.LOCK_BLOCK
            :: ((List.range NCHILDREN).map (fun _ => Op.fork 1)
              ++ Op.close 4
                :: (monitorWhile 3 []
                  ++ ((List.range 2).map (fun j => Op.wait (if j = 2 then -1 else 0))
                    ++ [Op.wait (-1), Op.printf 1 "Wait error\n", Op.exit]))) :=
  ⟨(main_early_exit false (sampleEnv (-1) 0 (fun _ => 1) [] (fun _ => 0))).1 (by decide),
   (main_early_exit true (sampleEnv 0 (-1) (fun _ => 1) [] (fun _ => 0))).2.1 rfl (by decide),
   (main_early_exit false
      (sampleEnv 0 0 (fun _ => 1) [] (fun j => if j = 2 then -1 else 0))).2.2 2
      (by decide) rfl (by decide) (fun _ _ => by simp [sampleEnv])
      (fun j hj => by
        have : j ≠ 2 := by omega
        simp [sampleEnv, this])
      (by decide)⟩

theorem filter_forOps (rfd : Int) :
    ∀ (g : List Byte) (fst : Byte),
      (forOps rfd fst g).filter isReadOrReset = g.map (fun c => Op.read rfd (some c)) := by
  intro g
  induction g with
  | nil =>
    intro fst
    rfl
  | cons c t ih =>
    intro fst
    simp only [forOps]
    split_ifs <;> simp [isReadOrReset, RACE, ih]

theorem filter_flatMap_forOps (rfd : Int) (L : List (List Byte)) :
    (L.flatMap (fun g => Op.fst_reset :: forOps rfd underscore g)).filter isReadOrReset
      = L.flatMap (groupReads rfd) := by
  induction L with
  | nil => rfl
  | cons g t ih =>
    simp only [List.flatMap_cons, List.filter_append, ih]
    simp [groupReads, isReadOrReset, filter_forOps]

theorem filter_monitorEnd (rfd : Int) (n : Nat) :
    (monitorEnd rfd n).filter isReadOrReset = monitorEnd rfd n := by
  unfold monitorEnd
  split_ifs <;> simp [isReadOrReset]

theorem erase_race_forOps (rfd : Int) :
    ∀ (g : List Byte) (fst : Byte),
      (forOps rfd fst g).filter notRACE = quietOps rfd fst g := by
  intro g
  induction g with
  | nil =>
    intro fst
    rfl
  | cons c t ih =>
    intro fst
    simp only [forOps, quietOps]
    split_ifs <;> simp [notRACE, RACE, ih]

theorem erase_race_flatMap (rfd : Int) (L : List (List Byte)) :
    (L.flatMap (fun g => Op.fst_reset :: forOps rfd underscore g)).filter notRACE
      = L.flatMap (fun g => Op.fst_reset :: quietOps rfd underscore g) := by
  induction L with
  | nil => rfl
  | cons g t ih =>
    simp only [List.flatMap_cons, List.filter_append, ih]
    simp [notRACE, RACE, erase_race_forOps]

theorem erase_race_monitorEnd (rfd : Int) (n : Nat) :
    (monitorEnd rfd n).filter notRACE = monitorEnd rfd n := by
  unfold monitorEnd
  split_ifs <;> simp [notRACE, RACE]

theorem race_not_mem_quietOps (rfd : Int) :
    ∀ (g : List Byte) (fst : Byte), RACE ∉ quietOps rfd fst g := by
  intro g
  induction g with
  | nil =>
    intro fst
    simp [quietOps]
  | cons c t ih =>
    intro fst
    simp only [quietOps]
    split_ifs <;> simp [RACE_ne_read, RACE_ne_fst_set, ih]

/-- C7: in a run that passes the setup, whatever the stream (with or without
mismatches), the monitor reads every byte up to end of file in groups of
`CRITSECTSZ` (its reads and resets are those of `groupReads` on the groups of
the stream, then the final `read`); once the `RACE!!!` lines are erased, its
whole trace is the one of the loop without the comparison (`quietOps`, which
never prints), so a mismatch adds the diagnostic and changes nothing else;
`main` continues with the wait loop, which does not depend on the stream, and
when the `NCHILDREN` waits succeed it performs them all, then `LOCK_DEL` and
`exit`. -/
theorem race_does_not_abort (cfg : Bool) (env : Env) (hpipe : env.pipeRet = 0)
    (hlock : 0 ≤ LOCK_CREATE_value cfg env)
    (hfork : ∀ i, i < NCHILDREN → env.forkRet i ≠ 0) :
    main cfg env
        = Op.pipe env.pipeRet :: Op.LOCK_CREATE env.l lock_type_t.LOCK_BLOCK
            :: ((List.range NCHILDREN).map (fun i => Op.fork (env.forkRet i))
              ++ Op.close env.pipes1
                :: (monitorWhile env.pipes0 env.stream ++ main_waits env.l env.waitRet 0))
      ∧ (monitorWhile env.pipes0 env.stream).filter isReadOrReset
        = (groups CRITSECTSZ env.stream).flatMap (groupReads env.pipes0)
          ++ monitorEnd env.pipes0 env.stream.length
      ∧ (monitorWhile env.pipes0 env.stream).filter notRACE
        = (groups CRITSECTSZ env.stream).flatMap
            (fun g => Op.fst_reset :: quietOps env.pipes0 underscore g)
          ++ monitorEnd env.pipes0 env.stream.length
      ∧ (∀ (g : List Byte) (fst : Byte), RACE ∉ quietOps env.pipes0 fst g)
      ∧ ((∀ i, i < NCHILDREN → 0 ≤ env.waitRet i) →
          main_waits env.l env.waitRet 0
            = (List.range NCHILDREN).map (fun i => Op.wait (env.waitRet i))
              ++ [Op.LOCK_DEL env.l, Op.exit]) := by
  refine ⟨?_, ?_, ?_, race_not_mem_quietOps env.pipes0, ?_⟩
  · rw [main_setup_ok cfg env hpipe hlock,
      main_forks_parent env NCHILDREN 0 (by simp) (fun j _ h2 => hfork j h2),
      List.range_eq_range']
  · rw [monitorWhile_groups env.pipes0 env.stream.length env.stream (le_refl _),
      List.filter_append, filter_flatMap_forOps, filter_monitorEnd]
  · rw [monitorWhile_groups env.pipes0 env.stream.length env.stream (le_refl _),
      List.filter_append, erase_race_flatMap, erase_race_monitorEnd]
  · intro hw
    rw [main_waits_ok env.l env.waitRet NCHILDREN 0 (by simp) (fun j _ h2 => hw j h2),
      List.range_eq_range']

/-- Witness of C7: a run on the stream `'a' 'b' 'a' 'c'`, which has mismatches. -/
theorem race_does_not_abort_witness :
    RACE ∈ monitorWhile 3 [97, 98, 97, 99]
      ∧ (monitorWhile 3 [97, 98, 97, 99]).filter isReadOrReset
        = (groups CRITSECTSZ [97, 98, 97, 99]).flatMap (groupReads 3)
          ++ monitorEnd 3 ([97, 98, 97, 99] : List Byte).length
      ∧ (monitorWhile 3 [97, 98, 97, 99]).filter notRACE
        = (groups CRITSECTSZ [97, 98, 97, 99]).flatMap
            (fun g => Op.fst_reset :: quietOps 3 underscore g)
          ++ monitorEnd 3 ([97, 98, 97, 99] : List Byte).length :=
  have h := race_does_not_abort false
    (sampleEnv 0 0 (fun _ => 1) [97, 98, 97, 99] (fun _ => 0))
    rfl (by decide) (fun _ _ => by simp [sampleEnv])
  ⟨by simp [monitorWhile, monitorFor, CRITSECTSZ, underscore, RACE], h.2.1, h.2.2.1⟩


/-- C9: the markers `data[i] = 'a' + i`, `i < NCHILDREN`, are pairwise distinct
and the cast to `char` does not overflow; the process in which the `k`-th
`fork` returns `0` runs `child(&l, pipes[1], data[k])`; and the bytes written
by two different workers are different. -/
theorem markers_distinct :
    (∀ i j, i < NCHILDREN → j < NCHILDREN → data i = data j → i = j)
      ∧ (∀ i, i < NCHILDREN →
          data i = first + (i : Int) ∧ -128 ≤ first + (i : Int) ∧ first + (i : Int) ≤ 127)
      ∧ (∀ (cfg : Bool) (env : Env) (k : Nat), k < NCHILDREN → env.pipeRet = 0 →
          0 ≤ LOCK_CREATE_value cfg env → (∀ j, j < k → env.forkRet j ≠ 0) →
          env.forkRet k = 0 →
          main cfg env
            = Op.pipe env.pipeRet :: Op.LOCK_CREATE env.l lock_type_t.LOCK_BLOCK
                :: ((List.range k).map (fun j => Op.fork (env.forkRet j))
                  ++ Op.fork (env.forkRet k) :: child env.l env.pipes1 (data k)))
      ∧ (∀ i j, i < NCHILDREN → j < NCHILDREN → i ≠ j →
          ∀ (l l' : Nat) (fd fd' : Int),
            ∀ b ∈ written (child l fd (data i)), ∀ b' ∈ written (child l' fd' (data j)),
              b ≠ b') := by
  have hinj : ∀ i j, i < NCHILDREN → j < NCHILDREN → data i = data j → i = j := by
    intro i j hi hj h
    rw [data_eq i hi, data_eq j hj] at h
    have h1 : (97 : Int) + (i : Int) = 97 + (j : Int) := h
    omega
  refine ⟨hinj, ?_, ?_, ?_⟩
  · intro i hi
    have h8 : NCHILDREN = 8 := rfl
    rw [h8] at hi
    have h0 : (0 : Int) ≤ (i : Int) := Int.ofNat_nonneg i
    have h7 : (i : Int) ≤ 7 := by omega
    refine ⟨by rw [data_eq i (by rw [h8]; exact hi)]; rfl, ?_, ?_⟩
    · show (-128 : Int) ≤ 97 + (i : Int)
      omega
    · show (97 : Int) + (i : Int) ≤ 127
      omega
  · intro cfg env k hk hpipe hlock hf hz
    rw [main_setup_ok cfg env hpipe hlock,
      main_forks_child env k hk hz k 0 (by simp) (fun j _ h2 => hf j h2),
      List.range_eq_range']
  · intro i j hi hj hij l l' fd fd' b hb b' hb'
    rw [written_child] at hb hb'
    rw [List.eq_of_mem_replicate hb, List.eq_of_mem_replicate hb']
    exact fun e => hij (hinj i j hi hj e)

/-- Witness of C9: the process in which the third `fork` returns `0`. -/
theorem markers_distinct_witness :
    main false (sampleEnv 0 0 (fun j => if j = 2 then 0 else 1) [] (fun _ => 0))
      = Op.pipe 0 :: Op.LOCK_CREATE 7 lock_type_t.LOCK_BLOCK
          :: ((List.range 2).map (fun j => Op.fork (if j = 2 then 0 else 1))
            ++ Op.fork 0 :: child 7 4 (data 2)) :=
  markers_distinct.2.2.1 false
    (sampleEnv 0 0 (fun j => if j = 2 then 0 else 1) [] (fun _ => 0)) 2
    (by decide) rfl (by decide)
    (fun j hj => by
      have : j ≠ 2 := by omega
      simp [sampleEnv, this])
    rfl


/-! ## Order of the cleanup -/

theorem filterMap_eq_nil_of_none {α β : Type} (f : α → Option β) (tr : List α)
    (h : ∀ a ∈ tr, f a = none) : tr.filterMap f = [] := by
  induction tr with
  | nil => rfl
  | cons a t ih =>
    rw [List.filterMap_cons, h a (List.mem_cons_self _ _)]
    exact ih (fun b hb => h b (List.mem_cons_of_mem _ hb))

theorem forOps_isMonitorOp (rfd : Int) :
    ∀ (g : List Byte) (fst : Byte), ∀ op ∈ forOps rfd fst g, isMonitorOp op = true := by
  intro g
  induction g with
  | nil =>
    intro fst op h
    simp [forOps] at h
  | cons c t ih =>
    intro fst op h
    simp only [forOps] at h
    split_ifs at h
    · rcases List.mem_cons.mp h with e | h
      · rw [e]; rfl
      rcases List.mem_cons.mp h with e | h
      · rw [e]; rfl
      exact ih _ op h
    · rcases List.mem_cons.mp h with e | h
      · rw [e]; rfl
      rcases List.mem_cons.mp h with e | h
      · rw [e]; rfl
      exact ih _ op h
    · rcases List.mem_cons.mp h with e | h
      · rw [e]; rfl
      exact ih _ op h

theorem monitorWhile_isMonitorOp (rfd : Int) (s : List Byte) :
    ∀ op ∈ monitorWhile rfd s, isMonitorOp op = true := by
  intro op h
  rw [monitorWhile_groups rfd s.length s (le_refl _)] at h
  rcases List.mem_append.mp h with h | h
  · obtain ⟨g, _, hg⟩ := List.mem_flatMap.mp h
    rcases List.mem_cons.mp hg with e | hg
    · rw [e]; rfl
    · exact forOps_isMonitorOp rfd g underscore op hg
  · unfold monitorEnd at h
    split_ifs at h
    · simp only [List.mem_cons, List.mem_singleton, List.not_mem_nil, or_false] at h
      rcases h with e | e <;> rw [e] <;> rfl
    · simp only [List.mem_singleton] at h
      rw [h]; rfl

theorem eof_mem_monitorWhile (rfd : Int) (s : List Byte) :
    Op.read rfd none ∈ monitorWhile rfd s := by
  rw [monitorWhile_groups rfd s.length s (le_refl _)]
  apply List.mem_append_right
  unfold monitorEnd
  split_ifs <;> simp

theorem waitResults_monitorWhile (rfd : Int) (s : List Byte) :
    waitResults (monitorWhile rfd s) = [] := by
  apply filterMap_eq_nil_of_none
  intro op h
  have := monitorWhile_isMonitorOp rfd s op h
  cases op <;> simp [isMonitorOp] at this <;> rfl

theorem lockDel_not_mem_monitorWhile (rfd : Int) (s : List Byte) (x : Nat) :
    Op.LOCK_DEL x ∉ monitorWhile rfd s := by
  intro h
  have := monitorWhile_isMonitorOp rfd s _ h
  simp [isMonitorOp] at this

theorem waitResults_child (l : Nat) (fd : Int) (m : Byte) :
    waitResults (child l fd m) = [] := by
  apply filterMap_eq_nil_of_none
  intro op h
  rcases mem_child l fd m op h with e | e | e | e <;> rw [e] <;> rfl

theorem lockDel_not_mem_child (l : Nat) (fd : Int) (m : Byte) (x : Nat) :
    Op.LOCK_DEL x ∉ child l fd m := by
  intro h
  rcases mem_child l fd m _ h with e | e | e | e <;> simp at e

theorem waitResults_cons_wait (r : Int) (t : List Op) :
    waitResults (Op.wait r :: t) = r :: waitResults t := rfl

theorem waitResults_append (a b : List Op) :
    waitResults (a ++ b) = waitResults a ++ waitResults b := by
  simp [waitResults]

theorem waitResults_map_wait (w : Nat → Int) (L : List Nat) :
    waitResults (L.map (fun j => Op.wait (w j))) = L.map w := by
  induction L with
  | nil => rfl
  | cons a t ih => rw [List.map_cons, waitResults_cons_wait, ih, List.map_cons]

theorem waitResults_map_fork (f : Nat → Int) (L : List Nat) :
    waitResults (L.map (fun j => Op.fork (f j))) = [] := by
  apply filterMap_eq_nil_of_none
  intro op h
  obtain ⟨j, _, e⟩ := List.mem_map.mp h
  rw [← e]
  rfl

/-- The wait loop either fails (no `LOCK_DEL`, a negative `wait` result in the
trace) or performs all remaining waits successfully, then `LOCK_DEL` and `exit`. -/
theorem main_waits_cases (l : Nat) (w : Nat → Int) :
    ∀ (n i : Nat), i + n = NCHILDREN →
      ((∀ x, Op.LOCK_DEL x ∉ main_waits l w i) ∧ ∃ r ∈ waitResults (main_waits l w i), r < 0)
        ∨ (main_waits l w i
              = (List.range' i n).map (fun j => Op.wait (w j)) ++ [Op.LOCK_DEL l, Op.exit]
            ∧ ∀ j, i ≤ j → j < NCHILDREN → 0 ≤ w j) := by
  intro n
  induction n with
  | zero =>
    intro i hi
    right
    have : ¬ i < NCHILDREN := by omega
    refine ⟨?_, fun j h1 h2 => absurd h2 (by omega)⟩
    rw [main_waits]
    simp [this]
  | succ n ih =>
    intro i hi
    have hlt : i < NCHILDREN := by omega
    by_cases hneg : w i < 0
    · left
      rw [main_waits]
      simp only [hlt, hneg, if_true]
      refine ⟨fun x => by simp, w i, ?_, hneg⟩
      simp [waitResults, waitResult]
    · rw [main_waits]
      simp only [hlt, hneg, if_true, if_false]
      rcases ih (i + 1) (by omega) with ⟨hnd, r, hr, hr0⟩ | ⟨heq, hall⟩
      · left
        refine ⟨fun x => by simpa using hnd x, r, ?_, hr0⟩
        rw [waitResults_cons_wait]
        exact List.mem_cons_of_mem _ hr
      · right
        refine ⟨by rw [heq, List.range'_succ]; rfl, ?_⟩
        intro j h1 h2
        by_cases hj : j = i
        · subst hj
          exact not_lt.mp hneg
        · exact hall j (by omega) h2


/-- The fork loop either ends in a worker (the process where a `fork` returned
`0`: no `LOCK_DEL`, no `wait`) or runs to its end in the parent. -/
theorem main_forks_cases (env : Env) :
    ∀ (n i : Nat), i + n = NCHILDREN →
      ((∀ x, Op.LOCK_DEL x ∉ main_forks env i) ∧ waitResults (main_forks env i) = [])
        ∨ main_forks env i
            = (List.range' i n).map (fun j => Op.fork (env.forkRet j))
              ++ Op.close env.pipes1
                :: (monitorWhile env.pipes0 env.stream ++ main_waits env.l env.waitRet 0) := by
  intro n
  induction n with
  | zero =>
    intro i hi
    right
    have : ¬ i < NCHILDREN := by omega
    rw [main_forks]
    simp [this]
  | succ n ih =>
    intro i hi
    have hlt : i < NCHILDREN := by omega
    by_cases hz : env.forkRet i = 0
    · left
      rw [main_forks]
      simp only [hlt, hz, if_true]
      refine ⟨fun x => ?_, ?_⟩
      · intro h
        rcases List.mem_cons.mp h with e | h
        · simp at e
        · exact lockDel_not_mem_child _ _ _ x h
      · show waitResults ([Op.fork 0] ++ child env.l env.pipes1 (data i)) = []
        rw [waitResults_append, waitResults_child]
        rfl
    · rw [main_forks]
      simp only [hlt, hz, if_true, if_false]
      rcases ih (i + 1) (by omega) with ⟨hnd, hw⟩ | heq
      · left
        refine ⟨fun x => by simpa using hnd x, ?_⟩
        show waitResults ([Op.fork (env.forkRet i)] ++ main_forks env (i + 1)) = []
        rw [waitResults_append, hw]
        rfl
      · right
        rw [heq, List.range'_succ]
        rfl

/-- Every run of `main` either never reaches `LOCK_DEL` (and then lacks a
successful `wait`), or is a trace `T` without `LOCK_DEL`, containing the
end-of-file `read` and `NCHILDREN` successful waits, followed by `LOCK_DEL(&l)`
and `exit()`. -/
theorem main_classify (cfg : Bool) (env : Env) :
    ((∀ x, Op.LOCK_DEL x ∉ main cfg env)
        ∧ ((waitResults (main cfg env)).length < NCHILDREN
          ∨ ∃ r ∈ waitResults (main cfg env), r < 0))
      ∨ ∃ T, main cfg env = T ++ [Op.LOCK_DEL env.l, Op.exit]
          ∧ (∀ x, Op.LOCK_DEL x ∉ T)
          ∧ Op.read env.pipes0 none ∈ T
          ∧ (waitResults T).length = NCHILDREN
          ∧ ∀ r ∈ waitResults T, 0 ≤ r := by
  by_cases hpipe : env.pipeRet = 0
  swap
  · left
    simp [main, hpipe, waitResults, waitResult, NCHILDREN]
  by_cases hlock : LOCK_CREATE_value cfg env < 0
  · left
    simp [main, hpipe, hlock, waitResults, waitResult, NCHILDREN]
  rw [main_setup_ok cfg env hpipe (not_lt.mp hlock)]
  rcases main_forks_cases env NCHILDREN 0 (by simp) with ⟨hnd, hw⟩ | hpar
  · left
    refine ⟨fun x => by simpa using hnd x, Or.inl ?_⟩
    show (waitResults ([Op.pipe env.pipeRet, Op.LOCK_CREATE env.l lock_type_t.LOCK_BLOCK]
      ++ main_forks env 0)).length < NCHILDREN
    rw [waitResults_append, hw]
    simp [waitResults, waitResult, NCHILDREN]
  rw [hpar]
  have hpre : ∀ (rest : List Op),
      Op.pipe env.pipeRet :: Op.LOCK_CREATE env.l lock_type_t.LOCK_BLOCK
          :: ((List.range' 0 NCHILDREN).map (fun j => Op.fork (env.forkRet j))
            ++ Op.close env.pipes1 :: (monitorWhile env.pipes0 env.stream ++ rest))
        = ([Op.pipe env.pipeRet, Op.LOCK_CREATE env.l lock_type_t.LOCK_BLOCK]
            ++ (List.range' 0 NCHILDREN).map (fun j => Op.fork (env.forkRet j))
            ++ [Op.close env.pipes1] ++ monitorWhile env.pipes0 env.stream) ++ rest := by
    intro rest
    simp
  have hwpre : waitResults
      ([Op.pipe env.pipeRet, Op.LOCK_CREATE env.l lock_type_t.LOCK_BLOCK]
        ++ (List.range' 0 NCHILDREN).map (fun j => Op.fork (env.forkRet j))
        ++ [Op.close env.pipes1] ++ monitorWhile env.pipes0 env.stream) = [] := by
    rw [waitResults_append, waitResults_append, waitResults_append, waitResults_monitorWhile,
      waitResults_map_fork]
    rfl
  have hdpre : ∀ x, Op.LOCK_DEL x ∉
      ([Op.pipe env.pipeRet, Op.LOCK_CREATE env.l lock_type_t.LOCK_BLOCK]
        ++ (List.range' 0 NCHILDREN).map (fun j => Op.fork (env.forkRet j))
        ++ [Op.close env.pipes1] ++ monitorWhile env.pipes0 env.stream) := by
    intro x h
    simp only [List.mem_append, List.mem_cons, List.mem_singleton, List.not_mem_nil,
      or_false, List.mem_map] at h
    rcases h with ((h | h) | h) | h
    · rcases h with e | e <;> simp at e
    · obtain ⟨j, _, e⟩ := h
      simp at e
    · simp at h
    · exact lockDel_not_mem_monitorWhile _ _ x h
  rw [hpre]
  rcases main_waits_cases env.l env.waitRet NCHILDREN 0 (by simp) with
    ⟨hnd, r, hr, hr0⟩ | ⟨heq, hall⟩
  · left
    refine ⟨?_, Or.inr ⟨r, ?_, hr0⟩⟩
    · intro x h
      rcases List.mem_append.mp h with h | h
      · exact hdpre x h
      · exact hnd x h
    · rw [waitResults_append]
      exact List.mem_append_right _ hr
  · right
    refine ⟨([Op.pipe env.pipeRet, Op.LOCK_CREATE env.l lock_type_t.LOCK_BLOCK]
        ++ (List.range' 0 NCHILDREN).map (fun j => Op.fork (env.forkRet j))
        ++ [Op.close env.pipes1] ++ monitorWhile env.pipes0 env.stream)
        ++ (List.range' 0 NCHILDREN).map (fun j => Op.wait (env.waitRet j)), ?_, ?_, ?_, ?_, ?_⟩
    · rw [heq]
      simp only [List.append_assoc]
    · intro x h
      rcases List.mem_append.mp h with h | h
      · exact hdpre x h
      · obtain ⟨j, _, e⟩ := List.mem_map.mp h
        simp at e
    · apply List.mem_append_left
      apply List.mem_append_right
      exact eof_mem_monitorWhile _ _
    · rw [waitResults_append, hwpre, waitResults_map_wait]
      simp
    · intro r hr
      rw [waitResults_append, hwpre, waitResults_map_wait] at hr
      simp only [List.nil_append, List.mem_map, List.mem_range'_1] at hr
      obtain ⟨j, ⟨_, hj⟩, e⟩ := hr
      rw [← e]
      exact hall j (by omega) (by omega)

theorem split_at_lockDel (T pre post : List Op) (l x : Nat)
    (hT : ∀ y, Op.LOCK_DEL y ∉ T)
    (h : T ++ [Op.LOCK_DEL l, Op.exit] = pre ++ Op.LOCK_DEL x :: post) :
    pre = T ∧ post = [Op.exit] := by
  rcases List.append_eq_append_iff.mp h with ⟨a, ha, hb⟩ | ⟨c, hc, hd⟩
  · cases a with
    | nil =>
      simp only [List.nil_append, List.cons.injEq] at hb
      exact ⟨by simpa using ha, hb.2.symm⟩
    | cons a1 a2 =>
      cases a2 with
      | nil =>
        simp at hb
      | cons a3 a4 =>
        cases a4 with
        | nil => simp at hb
        | cons a5 a6 => simp at hb
  · cases c with
    | nil =>
      simp only [List.nil_append, List.cons.injEq] at hd
      exact ⟨by simpa using hc.symm, hd.2⟩
    | cons c1 c2 =>
      simp only [List.cons_append, List.cons.injEq] at hd
      exfalso
      apply hT x
      rw [hc, ← hd.1]
      simp

/-- C8: in every run of `main`, `LOCK_DEL` is performed at most once; wherever
it occurs, the end-of-file `read` and `NCHILDREN` successful (non-negative)
`wait` calls precede it and `exit` follows at once; and when `NCHILDREN` waits
have succeeded it is performed exactly once, immediately before `exit`. -/
theorem lock_del_order (cfg : Bool) (env : Env) :
    (main cfg env).countP isLockDel ≤ 1
      ∧ (∀ (pre post : List Op) (x : Nat), main cfg env = pre ++ Op.LOCK_DEL x :: post →
          Op.read env.pipes0 none ∈ pre ∧ (waitResults pre).length = NCHILDREN
            ∧ (∀ r ∈ waitResults pre, 0 ≤ r) ∧ post = [Op.exit])
      ∧ ((waitResults (main cfg env)).length = NCHILDREN →
          (∀ r ∈ waitResults (main cfg env), 0 ≤ r) →
          (main cfg env).countP isLockDel = 1
            ∧ ∃ T, main cfg env = T ++ [Op.LOCK_DEL env.l, Op.exit]) := by
  have hcount0 : ∀ tr : List Op, (∀ x, Op.LOCK_DEL x ∉ tr) → tr.countP isLockDel = 0 := by
    intro tr h
    rw [List.countP_eq_zero]
    intro op hop hd
    cases op <;> simp [isLockDel] at hd
    exact h _ hop
  rcases main_classify cfg env with ⟨hnd, hw⟩ | ⟨T, hT, hnd, heof, hlen, hpos⟩
  · refine ⟨by rw [hcount0 _ hnd]; exact Nat.zero_le _, ?_, ?_⟩
    · intro pre post x h
      exfalso
      apply hnd x
      rw [h]
      simp
    · intro h1 h2
      exfalso
      rcases hw with hw | ⟨r, hr, hr0⟩
      · omega
      · exact absurd (h2 r hr) (not_le.mpr hr0)
  · have hc : (main cfg env).countP isLockDel = 1 := by
      rw [hT, List.countP_append, hcount0 T hnd]
      rfl
    refine ⟨le_of_eq hc, ?_, fun _ _ => ⟨hc, T, hT⟩⟩
    intro pre post x h
    rw [hT] at h
    obtain ⟨e1, e2⟩ := split_at_lockDel T pre post env.l x hnd h
    subst e1
    exact ⟨heof, hlen, hpos, e2⟩

/-- Witness of C8: the parent's run on the stream `'a' 'a' 'a'` with all forks
and waits successful. -/
theorem lock_del_order_witness :
    (main false (sampleEnv 0 0 (fun _ => 1) [97, 97, 97] (fun _ => 0))).countP isLockDel = 1
      ∧ ∃ T, main false (sampleEnv 0 0 (fun _ => 1) [97, 97, 97] (fun _ => 0))
          = T ++ [Op.LOCK_DEL 7, Op.exit] :=
  (lock_del_order false (sampleEnv 0 0 (fun _ => 1) [97, 97, 97] (fun _ => 0))).2.2
    (by
      simp [main, sampleEnv, LOCK_CREATE_value, compilehack0, main_forks, main_waits,
        NCHILDREN, waitResults, waitResult, List.filterMap_append,
        filterMap_eq_nil_of_none waitResult _
          (fun op h => by
            have := monitorWhile_isMonitorOp 3 [97, 97, 97] op h
            cases op <;> simp [isMonitorOp] at this <;> rfl)])
    (by
      simp [main, sampleEnv, LOCK_CREATE_value, compilehack0, main_forks, main_waits,
        NCHILDREN, waitResults, waitResult, List.filterMap_append,
        filterMap_eq_nil_of_none waitResult _
          (fun op h => by
            have := monitorWhile_isMonitorOp 3 [97, 97, 97] op h
            cases op <;> simp [isMonitorOp] at this <;> rfl)])


/-! ## The `LOCK_*` macros and `lock.c` -/

theorem compiled_append (cfg : Bool) (a b : List Op) :
    compiled cfg (a ++ b) = compiled cfg a ++ compiled cfg b := by
  simp [compiled]

theorem compiled_bursts (cfg : Bool) (l : Nat) (fd : Int) (m : Byte) (n : Nat) :
    compiled cfg (List.replicate n (burst l fd m)).flatten
      = (List.replicate n (compiled cfg (burst l fd m))).flatten := by
  induction n with
  | zero => rfl
  | succ n ih =>
    rw [List.replicate_succ, List.flatten_cons, compiled_append, ih, List.replicate_succ,
      List.flatten_cons]

theorem compiled_burst (cfg : Bool) (l : Nat) (fd : Int) (m : Byte) :
    compiled cfg (burst l fd m)
      = [if cfg then CExpr.call "lock_take" [Arg.ptr l] else CExpr.postIncr "compilehack",
          if cfg then CExpr.call "lock_release" [Arg.ptr l] else CExpr.postIncr "compilehack"] := by
  simp [compiled, burst, CRITSECTSZ, List.replicate, expand]

theorem compiled_child (cfg : Bool) (l : Nat) (fd : Int) (m : Byte) :
    compiled cfg (child l fd m)
      = (List.replicate 1366
          [if cfg then CExpr.call "lock_take" [Arg.ptr l] else CExpr.postIncr "compilehack",
            if cfg then CExpr.call "lock_release" [Arg.ptr l]
            else CExpr.postIncr "compilehack"]).flatten := by
  have h : compiled cfg [Op.exit] = [] := rfl
  rw [child_eq_bursts, compiled_append, compiled_bursts, compiled_burst, h, List.append_nil]

theorem compiled_monitorWhile (cfg : Bool) (rfd : Int) (s : List Byte) :
    compiled cfg (monitorWhile rfd s) = [] := by
  apply filterMap_eq_nil_of_none
  intro op h
  have := monitorWhile_isMonitorOp rfd s op h
  cases op <;> simp [isMonitorOp] at this <;> rfl

theorem compiled_map_fork (cfg : Bool) (f : Nat → Int) (L : List Nat) :
    compiled cfg (L.map (fun j => Op.fork (f j))) = [] := by
  apply filterMap_eq_nil_of_none
  intro op h
  obtain ⟨j, _, e⟩ := List.mem_map.mp h
  rw [← e]
  rfl

theorem compiled_map_wait (cfg : Bool) (f : Nat → Int) (L : List Nat) :
    compiled cfg (L.map (fun j => Op.wait (f j))) = [] := by
  apply filterMap_eq_nil_of_none
  intro op h
  obtain ⟨j, _, e⟩ := List.mem_map.mp h
  rw [← e]
  rfl

theorem compiled_main (cfg cfg' : Bool) (env : Env) (hpipe : env.pipeRet = 0)
    (hlock : 0 ≤ LOCK_CREATE_value cfg env)
    (hfork : ∀ i, i < NCHILDREN → env.forkRet i ≠ 0)
    (hwait : ∀ i, i < NCHILDREN → 0 ≤ env.waitRet i) :
    compiled cfg' (main cfg env)
      = [if cfg' then CExpr.call "lock_create" [Arg.ptr env.l, Arg.type lock_type_t.LOCK_BLOCK]
          else CExpr.postIncr "compilehack",
          if cfg' then CExpr.call "lock_delete" [Arg.ptr env.l]
          else CExpr.postIncr "compilehack"] := by
  rw [main_setup_ok cfg env hpipe hlock,
    main_forks_parent env NCHILDREN 0 (by simp) (fun j _ h2 => hfork j h2),
    main_waits_ok env.l env.waitRet NCHILDREN 0 (by simp) (fun j _ h2 => hwait j h2)]
  have e : ∀ (a b c d : List Op) (x y z : Op),
      x :: y :: (a ++ z :: (b ++ (c ++ d))) = [x, y] ++ a ++ [z] ++ b ++ c ++ d := by
    intro a b c d x y z
    simp
  rw [e]
  simp only [compiled_append, compiled_map_fork, compiled_map_wait, compiled_monitorWhile]
  simp [compiled, expand]

/-- C2 (as stated, refuted): in the harness as shipped the lock operations of a
worker are not calls of `lock_take` and `lock_release`: the first one executed
by `child(7, 4, 'a')` is `compilehack++`. -/
theorem shipped_child_calls_no_lock_manager :
    ¬ (∀ e ∈ compiled LOCKS_IMPLEMENTED (child 7 4 97),
        e = CExpr.call "lock_take" [Arg.ptr 7] ∨ e = CExpr.call "lock_release" [Arg.ptr 7]) := by
  intro h
  have hm : CExpr.postIncr "compilehack" ∈ compiled LOCKS_IMPLEMENTED (child 7 4 97) := by
    rw [compiled_child]
    exact List.mem_flatten.mpr ⟨_, List.mem_replicate.mpr ⟨by decide, rfl⟩,
      by simp [LOCKS_IMPLEMENTED]⟩
  rcases h _ hm with e | e <;> simp at e

/-- C2 (amended): `LOCKS_IMPLEMENTED` is not defined in the harness as shipped.
Were it defined, `main` would create its lock with `lock_create(&l, LOCK_BLOCK)`
and end with `lock_delete(&l)`, and each worker would alternate `lock_take(&l)`
and `lock_release(&l)` on that same lock; as shipped, every one of these
operations is `compilehack++` and no function of `lock.c` is called. -/
theorem lock_macros_expansion (env : Env) (hpipe : env.pipeRet = 0)
    (hlock : 0 ≤ env.lockCreateRet)
    (hfork : ∀ i, i < NCHILDREN → env.forkRet i ≠ 0)
    (hwait : ∀ i, i < NCHILDREN → 0 ≤ env.waitRet i) :
    LOCKS_IMPLEMENTED = false
      ∧ compiled true (main true env)
        = [CExpr.call "lock_create" [Arg.ptr env.l, Arg.type lock_type_t.LOCK_BLOCK],
            CExpr.call "lock_delete" [Arg.ptr env.l]]
      ∧ (∀ (i : Nat), compiled true (child env.l env.pipes1 (data i))
        = (List.replicate 1366 [CExpr.call "lock_take" [Arg.ptr env.l],
            CExpr.call "lock_release" [Arg.ptr env.l]]).flatten)
      ∧ compiled LOCKS_IMPLEMENTED (main LOCKS_IMPLEMENTED env)
        = [CExpr.postIncr "compilehack", CExpr.postIncr "compilehack"]
      ∧ (∀ (i : Nat), compiled LOCKS_IMPLEMENTED (child env.l env.pipes1 (data i))
        = (List.replicate 1366 [CExpr.postIncr "compilehack",
            CExpr.postIncr "compilehack"]).flatten)
      ∧ (∀ e ∈ compiled LOCKS_IMPLEMENTED (main LOCKS_IMPLEMENTED env),
          isLockManagerCall e = false) := by
  have h1 := compiled_main true true env hpipe (by simpa [LOCK_CREATE_value] using hlock)
    hfork hwait
  have h2 := compiled_main false false env hpipe (by simp [LOCK_CREATE_value, compilehack0])
    hfork hwait
  refine ⟨rfl, by simpa using h1, fun i => by rw [compiled_child]; rfl,
    by simpa [LOCKS_IMPLEMENTED] using h2,
    fun i => by rw [compiled_child]; rfl, ?_⟩
  intro e he
  simp only [LOCKS_IMPLEMENTED] at he
  rw [h2] at he
  simp at he
  rcases he with rfl
  rfl

/-- Witness of C2 (amended): a run of the parent with all calls successful. -/
theorem lock_macros_expansion_witness :
    compiled true (main true (sampleEnv 0 0 (fun _ => 1) [] (fun _ => 0)))
        = [CExpr.call "lock_create" [Arg.ptr 7, Arg.type lock_type_t.LOCK_BLOCK],
            CExpr.call "lock_delete" [Arg.ptr 7]]
      ∧ compiled LOCKS_IMPLEMENTED
          (main LOCKS_IMPLEMENTED (sampleEnv 0 0 (fun _ => 1) [] (fun _ => 0)))
        = [CExpr.postIncr "compilehack", CExpr.postIncr "compilehack"] :=
  have h := lock_macros_expansion (sampleEnv 0 0 (fun _ => 1) [] (fun _ => 0)) rfl
    (by decide) (fun _ _ => by simp [sampleEnv]) (fun _ _ => by simp [sampleEnv])
  ⟨h.2.1, h.2.2.2.1⟩

/-- C5 (as stated, refuted): on a table holding a free lock in slot `0` and a
held lock in slot `1`, the kernel's `delete` succeeds on `0`, fails on `1`
(held) and fails on `5` (no such lock), while `lock_delete` hands the same
value back to its caller in the three cases. -/
theorem lock_delete_hides_failure :
    (slock_delete_spec
        [some (Lock.fresh lock_type_t.LOCK_BLOCK),
          some (Lock.take (Lock.fresh lock_type_t.LOCK_BLOCK) 1).1] 0).1 = OK
      ∧ (slock_delete_spec
        [some (Lock.fresh lock_type_t.LOCK_BLOCK),
          some (Lock.take (Lock.fresh lock_type_t.LOCK_BLOCK) 1).1] 1).1 = ERROR
      ∧ (slock_delete_spec
        [some (Lock.fresh lock_type_t.LOCK_BLOCK),
          some (Lock.take (Lock.fresh lock_type_t.LOCK_BLOCK) 1).1] 5).1 = ERROR
      ∧ OK ≠ ERROR
      ∧ (lock_delete slock_delete_spec
        [some (Lock.fresh lock_type_t.LOCK_BLOCK),
          some (Lock.take (Lock.fresh lock_type_t.LOCK_BLOCK) 1).1] 0).1
        = (lock_delete slock_delete_spec
        [some (Lock.fresh lock_type_t.LOCK_BLOCK),
          some (Lock.take (Lock.fresh lock_type_t.LOCK_BLOCK) 1).1] 1).1
      ∧ (lock_delete slock_delete_spec
        [some (Lock.fresh lock_type_t.LOCK_BLOCK),
          some (Lock.take (Lock.fresh lock_type_t.LOCK_BLOCK) 1).1] 0).1
        = (lock_delete slock_delete_spec
        [some (Lock.fresh lock_type_t.LOCK_BLOCK),
          some (Lock.take (Lock.fresh lock_type_t.LOCK_BLOCK) 1).1] 5).1 := by
  refine ⟨by decide, by decide, by decide, by decide, rfl, rfl⟩

/-- C5 (amended): `lock_create`, `lock_take` and `lock_release` hand back to
their caller exactly the result of the underlying system call; `lock_delete`
performs the system call (same effect on the kernel state) but returns nothing:
its value is the same whatever `slock_delete` returned. -/
theorem lock_wrappers_results {σ : Type}
    (slock_create : σ → lock_type_t → Int × σ) (slock_take slock_release slock_delete :
      σ → Int → Int × σ) (k k' : σ) (type : lock_type_t) (lockid lockid' : Int) :
    lock_create slock_create k type = slock_create k type
      ∧ lock_take slock_take k lockid = slock_take k lockid
      ∧ lock_release slock_release k lockid = slock_release k lockid
      ∧ (lock_delete slock_delete k lockid).2 = (slock_delete k lockid).2
      ∧ (lock_delete slock_delete k lockid).1 = (lock_delete slock_delete k' lockid').1 :=
  ⟨rfl, rfl, rfl, rfl, rfl⟩


/-! ## Interleavings -/

theorem child_unfold (l : Nat) (fd : Int) (m : Byte) :
    child l fd m
      = Op.LOCK_TAKE l :: Op.write fd m :: Op.write fd m :: Op.write fd m
          :: Op.LOCK_RELEASE l :: (childLoop l fd m CRITSECTSZ ++ [Op.exit]) := by
  have h : (0 : Nat) < DATASZ := by decide
  rw [child, childLoop]
  simp [h, childWrites_zero, CRITSECTSZ, List.replicate]

/-- C1 (as stated, refuted): in the harness as shipped, scheduling worker `0`
twice and then worker `1` three times puts `'a' 'b' 'b'` on the pipe: the first
group of `CRITSECTSZ` bytes is not uniform. -/
theorem shipped_bursts_interleave :
    (run LOCKS_IMPLEMENTED [0, 0, 1, 1, 1] (initSys 7 4)).pipe = [97, 98, 98]
      ∧ ¬ (∀ g ∈ groups CRITSECTSZ (run LOCKS_IMPLEMENTED [0, 0, 1, 1, 1] (initSys 7 4)).pipe,
            uniform g) := by
  have hp : (run LOCKS_IMPLEMENTED [0, 0, 1, 1, 1] (initSys 7 4)).pipe = [97, 98, 98] := by
    have d0 : data 0 = 97 := data_eq 0 (by decide)
    have d1 : data 1 = 98 := data_eq 1 (by decide)
    simp [run, step, initSys, LOCKS_IMPLEMENTED, NCHILDREN, child_unfold, Function.update, d0, d1]
  refine ⟨hp, ?_⟩
  rw [hp]
  intro h
  have hg : ([97, 98, 98] : List Byte) ∈ groups CRITSECTSZ [97, 98, 98] := by
    rw [groups_step _ _ (by decide) (by simp)]
    simp [CRITSECTSZ]
  exact absurd (h _ hg) (by decide)


theorem rem_zero (l : Nat) (fd : Int) (m : Byte) : rem l fd m 0 = [Op.exit] := rfl

theorem rem_succ (l : Nat) (fd : Int) (m : Byte) (n : Nat) :
    rem l fd m (n + 1)
      = Op.LOCK_TAKE l ::
          (List.replicate CRITSECTSZ (Op.write fd m) ++ Op.LOCK_RELEASE l :: rem l fd m n) := by
  simp [rem, burst, List.replicate_succ]

theorem child_eq_rem (l : Nat) (fd : Int) (m : Byte) : child l fd m = rem l fd m 1366 :=
  child_eq_bursts l fd m

theorem wholeBursts_snoc (ms : List Byte) (m : Byte) :
    wholeBursts ms ++ List.replicate CRITSECTSZ m = wholeBursts (ms ++ [m]) := by
  simp [wholeBursts]

theorem step_suspended (cfg : Bool) (s : Sys) (w : Nat) (h : (s.procs w).suspended = true) :
    step cfg s w = s := by
  simp [step, h]

theorem step_nil (cfg : Bool) (s : Sys) (w : Nat) (h : (s.procs w).ops = []) :
    step cfg s w = s := by
  unfold step
  simp only [h]
  split_ifs <;> rfl

theorem step_write (cfg : Bool) (s : Sys) (w : Nat) (fd : Int) (c : Byte) (rest : List Op)
    (hs : (s.procs w).suspended = false) (ho : (s.procs w).ops = Op.write fd c :: rest) :
    step cfg s w
      = { s with pipe := s.pipe ++ [c],
                 procs := Function.update s.procs w { s.procs w with ops := rest } } := by
  unfold step
  simp only [hs, ho]
  simp

theorem step_exit (cfg : Bool) (s : Sys) (w : Nat) (rest : List Op)
    (hs : (s.procs w).suspended = false) (ho : (s.procs w).ops = Op.exit :: rest) :
    step cfg s w
      = { s with procs := Function.update s.procs w { s.procs w with ops := [] } } := by
  unfold step
  simp only [hs, ho]
  simp

theorem step_take_free (s : Sys) (w x : Nat) (rest : List Op)
    (hs : (s.procs w).suspended = false) (ho : (s.procs w).ops = Op.LOCK_TAKE x :: rest)
    (hf : s.lock.state = LockState.FREE) :
    step true s w
      = { s with lock := { s.lock with state := LockState.HELD, owner := some w },
                 procs := Function.update s.procs w { s.procs w with ops := rest } } := by
  unfold step
  simp only [hs, ho]
  simp [Lock.take, hf]

theorem step_take_held (s : Sys) (w x : Nat) (rest : List Op)
    (hs : (s.procs w).suspended = false) (ho : (s.procs w).ops = Op.LOCK_TAKE x :: rest)
    (hf : s.lock.state = LockState.HELD) :
    step true s w
      = { s with lock := { s.lock with wait_queue := s.lock.wait_queue ++ [w] },
                 procs := Function.update s.procs w { s.procs w with suspended := true } } := by
  unfold step
  simp only [hs, ho]
  simp [Lock.take, hf]

theorem step_release_last (s : Sys) (w x : Nat) (rest : List Op)
    (hs : (s.procs w).suspended = false) (ho : (s.procs w).ops = Op.LOCK_RELEASE x :: rest)
    (hst : s.lock.state = LockState.HELD) (hown : s.lock.owner = some w)
    (hq : s.lock.wait_queue = []) :
    step true s w
      = { s with lock := { s.lock with state := LockState.FREE, owner := none },
                 procs := Function.update s.procs w { s.procs w with ops := rest } } := by
  unfold step
  simp only [hs, ho]
  simp [Lock.release, hst, hown, hq]

theorem step_release_handoff (s : Sys) (w x h : Nat) (q : List Nat) (rest : List Op)
    (hs : (s.procs w).suspended = false) (ho : (s.procs w).ops = Op.LOCK_RELEASE x :: rest)
    (hst : s.lock.state = LockState.HELD) (hown : s.lock.owner = some w)
    (hq : s.lock.wait_queue = h :: q) (hne : h ≠ w) :
    step true s w
      = { s with lock := { s.lock with owner := some h, wait_queue := q },
                 procs := Function.update
                   (Function.update s.procs w { s.procs w with ops := rest }) h
                   { s.procs h with ops := (s.procs h).ops.tail, suspended := false } } := by
  unfold step
  simp only [hs, ho]
  simp [Lock.release, hst, hown, hq, Function.update_noteq hne]



theorem inv_init (l : Nat) (fd : Int) : Inv l fd (initSys l fd) := by
  refine ⟨[], [], rfl, ?_, ?_, List.nodup_nil, fun _ => ⟨rfl, rfl, rfl⟩, ?_⟩
  · intro w _ _
    refine ⟨?_, ?_⟩
    · simp only [initSys]
      split_ifs <;> rfl
    · by_cases hw : w < NCHILDREN
      · right
        exact ⟨1366, by simp only [initSys, hw, if_true]; exact child_eq_rem l fd (data w)⟩
      · left
        simp only [initSys, hw, if_false]
  · intro w hw
    simp [initSys, Lock.fresh] at hw
  · intro h
    simp [initSys, Lock.fresh] at h

theorem inv_step (l : Nat) (fd : Int) (s : Sys) (w : Nat) (hinv : Inv l fd s) :
    Inv l fd (step true s w) := by
  obtain ⟨ms, tail, hpipe, hB, hW, hnd, hfree, hheld⟩ := hinv
  by_cases hsusp : (s.procs w).suspended = true
  · rw [step_suspended true s w hsusp]
    exact ⟨ms, tail, hpipe, hB, hW, hnd, hfree, hheld⟩
  have hs : (s.procs w).suspended = false := by simpa using hsusp
  have hwq : w ∉ s.lock.wait_queue := by
    intro hmem
    have := (hW w hmem).1.1
    rw [hs] at this
    exact Bool.noConfusion this
  by_cases hown : s.lock.owner = some w
  · -- the owner runs: a write or the release
    have hst : s.lock.state = LockState.HELD := by
      cases h : s.lock.state with
      | FREE =>
        have := (hfree h).1
        rw [hown] at this
        exact Option.noConfusion this
      | HELD => rfl
    obtain ⟨o, k, ho, hk, ⟨_, n, hops⟩, ht⟩ := hheld hst
    have how : o = w := by
      rw [hown] at ho
      exact (Option.some.inj ho).symm
    subst how
    cases k with
    | succ k =>
      rw [List.replicate_succ, List.cons_append] at hops
      rw [step_write true s o fd (data o) _ hs hops]
      refine ⟨ms, tail ++ [data o], ?_, ?_, ?_, hnd, ?_, ?_⟩
      · show s.pipe ++ [data o] = wholeBursts ms ++ (tail ++ [data o])
        rw [hpipe, List.append_assoc]
      · intro v hv1 hv2
        have hvo : v ≠ o := fun e => hv2 (by rw [e]; exact hown)
        show AtBoundary l fd v (Function.update s.procs o _ v)
        rw [Function.update_noteq hvo]
        exact hB v hv1 hv2
      · intro v hv
        have hvo : v ≠ o := fun e => hwq (by rw [← e]; exact hv)
        show Waiting l fd v (Function.update s.procs o _ v) ∧ _
        rw [Function.update_noteq hvo]
        exact hW v hv
      · intro hf
        exact absurd (hst.symm.trans hf) (by decide)
      · intro _
        refine ⟨o, k, hown, by omega, ⟨?_, n, ?_⟩, ?_⟩
        · show (Function.update s.procs o _ o).suspended = false
          rw [Function.update_same]
          exact hs
        · show (Function.update s.procs o _ o).ops = _
          rw [Function.update_same]
        · rw [ht, ← List.replicate_succ']
          congr 1
          omega
    | zero =>
      rw [List.replicate_zero, List.nil_append] at hops
      have ht3 : tail = List.replicate CRITSECTSZ (data o) := by simpa using ht
      cases hq : s.lock.wait_queue with
      | nil =>
        rw [step_release_last s o l _ hs hops hst hown hq]
        refine ⟨ms ++ [data o], [], ?_, ?_, ?_, ?_, ?_, ?_⟩
        · show s.pipe = wholeBursts (ms ++ [data o]) ++ []
          rw [hpipe, ht3, wholeBursts_snoc, List.append_nil]
        · intro v hv1 _
          show AtBoundary l fd v (Function.update s.procs o _ v)
          by_cases hvo : v = o
          · subst hvo
            rw [Function.update_same]
            exact ⟨hs, Or.inr ⟨n, rfl⟩⟩
          · rw [Function.update_noteq hvo]
            exact hB v (by rw [hq]; simp) (fun e => hvo (by
              rw [hown] at e
              exact (Option.some.inj e).symm))
        · intro v hv
          have : v ∈ s.lock.wait_queue := hv
          rw [hq] at this
          simp at this
        · show s.lock.wait_queue.Nodup
          exact hnd
        · intro _
          exact ⟨rfl, hq, rfl⟩
        · intro hc
          exact LockState.noConfusion hc
      | cons h q =>
        have hhmem : h ∈ s.lock.wait_queue := by rw [hq]; simp
        have hho : h ≠ o := fun e => hwq (by rw [← e]; exact hhmem)
        have hnd2 : (h :: q).Nodup := by rw [← hq]; exact hnd
        have hhq : h ∉ q := (List.nodup_cons.mp hnd2).1
        obtain ⟨⟨_, nh, hhops⟩, _⟩ := hW h hhmem
        rw [step_release_handoff s o l h q _ hs hops hst hown hq hho]
        refine ⟨ms ++ [data o], [], ?_, ?_, ?_, ?_, ?_, ?_⟩
        · show s.pipe = wholeBursts (ms ++ [data o]) ++ []
          rw [hpipe, ht3, wholeBursts_snoc, List.append_nil]
        · intro v hv1 hv2
          have hvq : v ∉ q := hv1
          have hvh : v ≠ h := fun e => hv2 (by rw [e])
          show AtBoundary l fd v (Function.update (Function.update s.procs o _) h _ v)
          rw [Function.update_noteq hvh]
          by_cases hvo : v = o
          · subst hvo
            rw [Function.update_same]
            exact ⟨hs, Or.inr ⟨n, rfl⟩⟩
          · rw [Function.update_noteq hvo]
            refine hB v ?_ (fun e => hvo (by
              rw [hown] at e
              exact (Option.some.inj e).symm))
            rw [hq]
            simp [hvh, hvq]
        · intro v hv
          have hvq : v ∈ q := hv
          have hvh : v ≠ h := fun e => hhq (by rw [← e]; exact hvq)
          have hvmem : v ∈ s.lock.wait_queue := by rw [hq]; exact List.mem_cons_of_mem _ hvq
          have hvo : v ≠ o := fun e => hwq (by rw [← e]; exact hvmem)
          refine ⟨?_, fun e => hvh (Option.some.inj e).symm⟩
          show Waiting l fd v (Function.update (Function.update s.procs o _) h _ v)
          rw [Function.update_noteq hvh, Function.update_noteq hvo]
          exact (hW v hvmem).1
        · show q.Nodup
          exact (List.nodup_cons.mp hnd2).2
        · intro hc
          have : s.lock.state = LockState.FREE := hc
          exact absurd (hst.symm.trans this) (by decide)
        · intro _
          refine ⟨h, CRITSECTSZ, rfl, le_refl _, ⟨?_, nh, ?_⟩, by simp⟩
          · show (Function.update (Function.update s.procs o _) h _ h).suspended = false
            rw [Function.update_same]
          · show (Function.update (Function.update s.procs o _) h _ h).ops = _
            rw [Function.update_same]
            show (s.procs h).ops.tail = _
            rw [hhops]
            rfl
  · -- a worker between critical sections runs: a take or the exit
    obtain ⟨_, hops⟩ := hB w hwq hown
    rcases hops with h0 | ⟨n, hn⟩
    · rw [step_nil true s w h0]
      exact ⟨ms, tail, hpipe, hB, hW, hnd, hfree, hheld⟩
    cases n with
    | zero =>
      rw [rem_zero] at hn
      rw [step_exit true s w [] hs hn]
      refine ⟨ms, tail, hpipe, ?_, ?_, hnd, hfree, ?_⟩
      · intro v hv1 hv2
        show AtBoundary l fd v (Function.update s.procs w _ v)
        by_cases hvw : v = w
        · subst hvw
          rw [Function.update_same]
          exact ⟨hs, Or.inl rfl⟩
        · rw [Function.update_noteq hvw]
          exact hB v hv1 hv2
      · intro v hv
        have hvw : v ≠ w := fun e => hwq (by rw [← e]; exact hv)
        show Waiting l fd v (Function.update s.procs w _ v) ∧ _
        rw [Function.update_noteq hvw]
        exact hW v hv
      · intro hst
        obtain ⟨o, k, ho, hk, hH, ht⟩ := hheld hst
        have how : o ≠ w := fun e => hown (by rw [← e]; exact ho)
        refine ⟨o, k, ho, hk, ?_, ht⟩
        show Holding l fd o (Function.update s.procs w _ o) k
        rw [Function.update_noteq how]
        exact hH
    | succ n =>
      rw [rem_succ] at hn
      cases hst : s.lock.state with
      | FREE =>
        obtain ⟨hnone, hqnil, htnil⟩ := hfree hst
        rw [step_take_free s w l _ hs hn hst]
        refine ⟨ms, tail, hpipe, ?_, ?_, hnd, ?_, ?_⟩
        · intro v hv1 hv2
          have hvw : v ≠ w := fun e => hv2 (by rw [e])
          show AtBoundary l fd v (Function.update s.procs w _ v)
          rw [Function.update_noteq hvw]
          exact hB v hv1 (by rw [hnone]; simp)
        · intro v hv
          have : v ∈ s.lock.wait_queue := hv
          rw [hqnil] at this
          simp at this
        · intro hc
          exact LockState.noConfusion hc
        · intro _
          refine ⟨w, CRITSECTSZ, rfl, le_refl _, ⟨?_, n, ?_⟩, by simp [htnil]⟩
          · show (Function.update s.procs w _ w).suspended = false
            rw [Function.update_same]
            exact hs
          · show (Function.update s.procs w _ w).ops = _
            rw [Function.update_same]
      | HELD =>
        obtain ⟨o, k, ho, hk, hH, ht⟩ := hheld hst
        have how : o ≠ w := fun e => hown (by rw [← e]; exact ho)
        rw [step_take_held s w l _ hs hn hst]
        refine ⟨ms, tail, hpipe, ?_, ?_, ?_, ?_, ?_⟩
        · intro v hv1 hv2
          have hv1' : v ∉ s.lock.wait_queue ++ [w] := hv1
          have hvw : v ≠ w := fun e => hv1' (by rw [e]; simp)
          show AtBoundary l fd v (Function.update s.procs w _ v)
          rw [Function.update_noteq hvw]
          exact hB v (fun hm => hv1' (List.mem_append_left _ hm)) hv2
        · intro v hv
          have hv' : v ∈ s.lock.wait_queue ++ [w] := hv
          show Waiting l fd v (Function.update s.procs w _ v) ∧ s.lock.owner ≠ some v
          rcases List.mem_append.mp hv' with hm | hm
          · have hvw : v ≠ w := fun e => hwq (by rw [← e]; exact hm)
            rw [Function.update_noteq hvw]
            exact hW v hm
          · have hvw : v = w := by simpa using hm
            subst hvw
            rw [Function.update_same]
            exact ⟨⟨rfl, n, hn⟩, hown⟩
        · show (s.lock.wait_queue ++ [w]).Nodup
          rw [List.nodup_append]
          refine ⟨hnd, List.nodup_singleton w, ?_⟩
          intro a ha hb
          have : a = w := by simpa using hb
          exact hwq (by rw [← this]; exact ha)
        · intro hc
          have : s.lock.state = LockState.FREE := hc
          exact absurd (hst.symm.trans this) (by decide)
        · intro _
          refine ⟨o, k, ho, hk, ?_, ht⟩
          show Holding l fd o (Function.update s.procs w _ o) k
          rw [Function.update_noteq how]
          exact hH

theorem inv_run (l : Nat) (fd : Int) (sched : List Nat) :
    ∀ s, Inv l fd s → Inv l fd (run true sched s) := by
  induction sched with
  | nil =>
    intro s h
    exact h
  | cons w t ih =>
    intro s h
    exact ih _ (inv_step l fd s w h)



theorem uniform_replicate (j : Nat) (m : Byte) : uniform (List.replicate j m) := by
  intro x hx y hy
  rw [List.eq_of_mem_replicate hx, List.eq_of_mem_replicate hy]

theorem groups_short (s : List Byte) (hs : s ≠ []) (hl : s.length ≤ CRITSECTSZ) :
    groups CRITSECTSZ s = [s] := by
  rw [groups_step _ _ (by decide) hs, List.take_of_length_le hl, List.drop_of_length_le hl,
    groups_nil]

theorem groups_wholeBursts (tail : List Byte) (j : Nat) (m : Byte) (hj : j ≤ CRITSECTSZ)
    (ht : tail = List.replicate j m) :
    ∀ ms : List Byte, ∀ g ∈ groups CRITSECTSZ (wholeBursts ms ++ tail), uniform g := by
  intro ms
  induction ms with
  | nil =>
    intro g hg
    simp only [wholeBursts, List.flatMap_nil, List.nil_append] at hg
    by_cases he : tail = []
    · rw [he, groups_nil] at hg
      simp at hg
    · rw [groups_short tail he (by rw [ht, List.length_replicate]; exact hj)] at hg
      have : g = tail := by simpa using hg
      rw [this, ht]
      exact uniform_replicate j m
  | cons a ms ih =>
    intro g hg
    have hsplit : wholeBursts (a :: ms) ++ tail
        = List.replicate CRITSECTSZ a ++ (wholeBursts ms ++ tail) := by
      simp [wholeBursts]
    have hne : List.replicate CRITSECTSZ a ++ (wholeBursts ms ++ tail) ≠ [] := by
      simp [CRITSECTSZ, List.replicate]
    have hlen : (List.replicate CRITSECTSZ a).length = CRITSECTSZ := List.length_replicate _ _
    rw [hsplit, groups_step _ _ (by decide) hne, List.take_left' hlen, List.drop_left' hlen] at hg
    rcases List.mem_cons.mp hg with e | e
    · rw [e]
      exact uniform_replicate _ a
    · exact ih g e

/-- A run with the lock in which both workers progress: worker `1` asks for
the lock while worker `0` holds it, is suspended, and gets it at the release. -/
theorem locked_run_example :
    (run true [0, 0, 1, 1, 0, 0, 0, 1, 1, 1] (initSys 7 4)).pipe = [97, 97, 97, 98, 98, 98] := by
  have d0 : data 0 = 97 := data_eq 0 (by decide)
  have d1 : data 1 = 98 := data_eq 1 (by decide)
  simp [run, step, initSys, NCHILDREN, child_unfold, Function.update, d0, d1, Lock.take,
    Lock.release, Lock.fresh]

/-- C1 (amended): with `LOCKS_IMPLEMENTED` and a lock that behaves as the
specification says (`take` on a held lock suspends the caller, `release` hands
the lock to the first waiter or frees it), for every interleaving of the
`NCHILDREN` workers, each running `child`, every group of `CRITSECTSZ`
consecutive bytes on the pipe, taken from its start, is uniform. -/
theorem locked_bursts_uniform (l : Nat) (fd : Int) (sched : List Nat) :
    ∀ g ∈ groups CRITSECTSZ (run true sched (initSys l fd)).pipe, uniform g := by
  obtain ⟨ms, tail, hpipe, _, _, _, hfree, hheld⟩ :=
    inv_run l fd sched (initSys l fd) (inv_init l fd)
  rw [hpipe]
  cases hst : (run true sched (initSys l fd)).lock.state with
  | FREE =>
    exact groups_wholeBursts tail 0 0 (Nat.zero_le _) (hfree hst).2.2 ms
  | HELD =>
    obtain ⟨o, k, _, _, _, ht⟩ := hheld hst
    exact groups_wholeBursts tail (CRITSECTSZ - k) (data o) (Nat.sub_le _ _) ht ms

theorem locked_run_groups :
    ([98, 98, 98] : List Byte)
      ∈ groups CRITSECTSZ (run true [0, 0, 1, 1, 0, 0, 0, 1, 1, 1] (initSys 7 4)).pipe := by
  rw [locked_run_example, groups_step _ _ (by decide) (by simp)]
  apply List.mem_cons_of_mem
  rw [groups_step _ _ (by decide) (by simp [CRITSECTSZ])]
  simp [CRITSECTSZ]

/-- Witness of C1 (amended): the second group of the run of `locked_run_example`. -/
theorem locked_bursts_uniform_witness :
    ([98, 98, 98] : List Byte)
        ∈ groups CRITSECTSZ (run true [0, 0, 1, 1, 0, 0, 0, 1, 1, 1] (initSys 7 4)).pipe
      ∧ uniform [98, 98, 98] :=
  ⟨locked_run_groups,
   locked_bursts_uniform 7 4 [0, 0, 1, 1, 0, 0, 0, 1, 1, 1] [98, 98, 98] locked_run_groups⟩

end Hw5
